import Mathlib

/-!
Shallow embedding of the text tree of `src/internal/pkg/text/tree.go`.

Conventions of the embedding:
* a byte is a `Nat` (values 0..255); Go's fixed-capacity arrays paired with an
  occupancy count (`textBytes [63]byte` with `numBytes`, `nodes [64]…` with
  `numNodes`, `keys [64]indexKey` with `numKeys`) are embedded as Lean lists
  whose length is the occupancy count;
* the `leafNodeGroup` doubly-linked list is embedded by letting every
  leaf-group reference carry the list of groups from itself to the end of the
  document (a Go `*leafNodeGroup` pointer together with its `next` chain);
  `nil` is the empty list; the `prev` link is never read by the code under
  verification and is not embedded;
* `io.Reader` streams are embedded as the list of results of successive `Read`
  calls (a chunk of bytes, or a non-EOF error); reaching the end of the list is
  end of stream (`io.EOF`);
* fallible construction returns the Go result pair `(*Tree, error)` as
  `Option Tree × Option TreeError`.
-/

namespace TextTree

/-- From tree.go: `maxKeysPerNode = 64`. -/
def maxKeysPerNode : Nat := 64

/-- From tree.go: `maxNodesPerGroup = maxKeysPerNode`. -/
def maxNodesPerGroup : Nat := maxKeysPerNode

/-- From tree.go: `maxBytesPerLeaf = 63`. -/
def maxBytesPerLeaf : Nat := 63

/-- From tree.go `init()`: lookup table for UTF-8 bytes, set to 1 for start
bytes (`b>>7 == 0 || b>>5 == 0b110 || b>>4 == 0b1110 || b>>3 == 0b11110`),
zero otherwise. `b >> k` is `b / 2^k`. -/
def utf8StartByteIndicator (b : Nat) : Nat :=
  if b / 128 = 0 ∨ b / 32 = 6 ∨ b / 16 = 14 ∨ b / 8 = 30 then 1 else 0

/-- From tree.go: `indexKey` — number of UTF-8 characters and line breaks in a
subtree. -/
structure indexKey where
  numChars : Nat
  numLines : Nat
  deriving DecidableEq, Repr

/-- A `leafNode`: its `numBytes` valid text bytes. -/
abbrev Leaf := List Nat

/-- A `leafNodeGroup`'s `numNodes` valid leaf nodes. -/
abbrev LeafGroup := List Leaf

/-- From tree.go `leafNode.key()`: scan the valid bytes, counting UTF-8 start
bytes via `utf8StartByteIndicator` and newline bytes (`'\n'` = 10). -/
def leafKey (l : Leaf) : indexKey :=
  ⟨(l.map utf8StartByteIndicator).sum, l.count 10⟩

/-- From tree.go `leafNode.byteOffsetForPosition(charPos)`: linear scan with a
running character count; returns the byte offset of the `charPos`-th character
in the leaf, or the leaf's byte length if `charPos` is at or past the leaf's
character count. -/
def byteOffsetForPosition : List Nat → Nat → Nat
  | [], _ => 0
  | b :: rest, p =>
    if utf8StartByteIndicator b = 1 then
      if p = 0 then 0 else 1 + byteOffsetForPosition rest (p - 1)
    else 1 + byteOffsetForPosition rest p

/-- Modelled from the spec: the streaming UTF-8 `Validator`
(`NewValidator` / `ValidateBytes` / `ValidateEnd` of package text) is called
from tree.go but its source file is not under src/. Per §4.1 the validator
keeps the state of a partially-read multi-byte sequence across calls and
rejects on the first byte violating the UTF-8 encoding rules. The state is the
number of continuation bytes still expected, plus the inclusive range allowed
for the next continuation byte (which enforces the rules against overlong
encodings, surrogates, and values above U+10FFFF). -/
structure Validator where
  need : Nat
  lo : Nat
  hi : Nat
  deriving DecidableEq, Repr

/-- Modelled from the spec: fresh validator state (`NewValidator`), expecting a
start byte. -/
def newValidator : Validator := ⟨0, 0x80, 0xBF⟩

/-- Modelled from the spec: consume one byte, `none` on a UTF-8 violation. -/
def validatorStep (v : Validator) (b : Nat) : Option Validator :=
  if v.need = 0 then
    if b ≤ 0x7F then some ⟨0, 0x80, 0xBF⟩
    else if 0xC2 ≤ b ∧ b ≤ 0xDF then some ⟨1, 0x80, 0xBF⟩
    else if b = 0xE0 then some ⟨2, 0xA0, 0xBF⟩
    else if 0xE1 ≤ b ∧ b ≤ 0xEC then some ⟨2, 0x80, 0xBF⟩
    else if b = 0xED then some ⟨2, 0x80, 0x9F⟩
    else if 0xEE ≤ b ∧ b ≤ 0xEF then some ⟨2, 0x80, 0xBF⟩
    else if b = 0xF0 then some ⟨3, 0x90, 0xBF⟩
    else if 0xF1 ≤ b ∧ b ≤ 0xF3 then some ⟨3, 0x80, 0xBF⟩
    else if b = 0xF4 then some ⟨3, 0x80, 0x8F⟩
    else none
  else
    if v.lo ≤ b ∧ b ≤ v.hi then
      if v.need = 1 then some ⟨0, 0x80, 0xBF⟩ else some ⟨v.need - 1, 0x80, 0xBF⟩
    else none

/-- Modelled from the spec: `ValidateBytes(chunk)` — feed a chunk, `none` as
soon as a byte violates UTF-8 given all prior chunks. -/
def validateBytes : Validator → List Nat → Option Validator
  | v, [] => some v
  | v, b :: bs =>
    match validatorStep v b with
    | none => none
    | some v2 => validateBytes v2 bs

/-- Modelled from the spec: `ValidateEnd()` — false if the stream ended in the
middle of a multi-byte sequence. -/
def validateEnd (v : Validator) : Bool := v.need == 0

/-- A byte sequence is valid UTF-8 when the validator accepts every byte and
the sequence does not end mid-character. -/
def acceptedUtf8From (v : Validator) (s : List Nat) : Bool :=
  match validateBytes v s with
  | none => false
  | some v2 => validateEnd v2

/-- Validity of a whole byte sequence, from a fresh validator. -/
def acceptedUtf8 (s : List Nat) : Bool := acceptedUtf8From newValidator s

/-- From tree.go: `Cursor` — a borrowed leaf group (embedded with its `next`
chain), a node index in the group, and a byte offset in that node. -/
structure Cursor where
  groups : List LeafGroup
  nodeIdx : Nat
  textByteOffset : Nat
  deriving DecidableEq, Repr

/-- From tree.go `Cursor.Read(b)`: repeatedly copy bytes from the current node
into the buffer (`copy` transfers `min space (node.numBytes - offset)` bytes),
advancing the byte offset, then the node index once the node is exhausted, then
following the `next` link once the group is exhausted. Returns the bytes read
and whether `io.EOF` was returned (the buffer-full check precedes the nil-group
check, exactly as in the Go loop). On the states reachable from cursor
creation the offset never exceeds the node's byte count and the node index
never exceeds the group's node count, so the `≥` tests below coincide with
Go's `==` tests. -/
def readLoop (gs : List LeafGroup) (j o space : Nat) : List Nat × Bool :=
  match gs, space with
  | _, 0 => ([], false)
  | [], _ + 1 => ([], true)
  | g :: rest, sp + 1 =>
    if o + min (sp + 1) ((g.getD j []).length - o) ≥ (g.getD j []).length then
      if j + 1 ≥ g.length then
        let r := readLoop rest 0 0 (sp + 1 - min (sp + 1) ((g.getD j []).length - o))
        (((g.getD j []).drop o).take (sp + 1) ++ r.1, r.2)
      else
        let r := readLoop (g :: rest) (j + 1) 0
          (sp + 1 - min (sp + 1) ((g.getD j []).length - o))
        (((g.getD j []).drop o).take (sp + 1) ++ r.1, r.2)
    else
      let r := readLoop (g :: rest) j (o + min (sp + 1) ((g.getD j []).length - o))
        (sp + 1 - min (sp + 1) ((g.getD j []).length - o))
      (((g.getD j []).drop o).take (sp + 1) ++ r.1, r.2)
  termination_by space + gs.length + (gs.map List.length).sum - min j ((gs.headD []).length)
  decreasing_by
  · simp_all; omega
  · simp_all; omega
  · simp_all; omega

/-- Read through a cursor: bytes obtained and whether end-of-stream was
signalled in that same call. -/
def Cursor.read (c : Cursor) (bufLen : Nat) : List Nat × Bool :=
  readLoop c.groups c.nodeIdx c.textByteOffset bufLen

/-- From tree.go: `nodeGroup` — either a leaf node group or an inner node
group. An inner node (`innerNode`) is its `numKeys` valid keys paired with its
child group; an inner group holds its `numNodes` valid inner nodes. A leaf
group is embedded as the chain of leaf groups from itself onward (see the
header comment). -/
inductive nodeGroup : Type where
  | leafNG : List LeafGroup → nodeGroup
  | innerNG : List (List indexKey × nodeGroup) → nodeGroup

/-- From tree.go `innerNode.key()`: componentwise sum of the node's valid
keys. -/
def nodeKeySum (keys : List indexKey) : indexKey :=
  keys.foldl (fun a k => ⟨a.numChars + k.numChars, a.numLines + k.numLines⟩) ⟨0, 0⟩

/-- From tree.go `leafNodeGroup.keys()` / `innerNodeGroup.keys()`: the key of
each node in the group (`leafNode.key()` per leaf, `innerNode.key()` per inner
node). -/
def groupKeys : nodeGroup → List indexKey
  | .leafNG gs => (gs.headD []).map leafKey
  | .innerNG ns => ns.map fun n => nodeKeySum n.1

/-- From tree.go: the group's `numNodes` field. -/
def numNodes : nodeGroup → Nat
  | .leafNG gs => (gs.headD []).length
  | .innerNG ns => ns.length

/-- From tree.go `innerNode.cursorAtPosition`: iterate the first `numKeys - 1`
keys with a running offset `c`; descend into child `i` with offset
`charPos - c` when `charPos < c + nc`; otherwise fall through to the last
child. Returns the selected child index and the adjusted offset. `i` and `c`
are the loop variables (initially 0). The `[]` case is unreachable from any
constructed tree (every inner node has at least one key; in Go, `numKeys-1`
would wrap around and index past the group). -/
def innerDescend : List indexKey → Nat → Nat → Nat → Nat × Nat
  | [], i, c, p => (i, p - c)
  | [_], i, c, p => (i, p - c)
  | k :: ks, i, c, p =>
    if p < c + k.numChars then (i, p - c) else innerDescend ks (i + 1) (c + k.numChars) p

/-- From tree.go `nodeGroup.cursorAtPosition(nodeIdx, charPos)`:
`leafNodeGroup.cursorAtPosition` resolves the byte offset in node `nodeIdx`
via `byteOffsetForPosition` and returns a cursor borrowing the group;
`innerNodeGroup.cursorAtPosition` dispatches to `nodes[nodeIdx]`, which runs
the key descent (`innerNode.cursorAtPosition`) and recurses into its child
group. Indexing `nodes[nodeIdx]` is embedded by peeling `nodeIdx` list cells.
The `innerNG []` case is unreachable from constructed trees. -/
def goGroup : nodeGroup → Nat → Nat → Cursor
  | .leafNG gs, j, p =>
    ⟨gs, j, byteOffsetForPosition ((gs.headD []).getD j []) p⟩
  | .innerNG [], _j, _p => ⟨[], 0, 0⟩
  | .innerNG ((ks, child) :: _), 0, p =>
    goGroup child (innerDescend ks 0 0 p).1 (innerDescend ks 0 0 p).2
  | .innerNG (_ :: rest), j + 1, p => goGroup (.innerNG rest) j p
  termination_by g j p => sizeOf g
  decreasing_by
  · simp_arith
  · simp_arith

/-- From tree.go: `Tree` — the root node group and the validator. -/
structure Tree where
  root : nodeGroup
  validator : Validator

/-- From tree.go `NewTree()`: an inner group with one node whose single key is
the zero value and whose child is a leaf group with one (empty) leaf. -/
def NewTree : Tree :=
  ⟨.innerNG [([⟨0, 0⟩], .leafNG [[[]]])], newValidator⟩

/-- From tree.go `Tree.CursorAtPosition(charPos)`:
`t.root.cursorAtPosition(0, charPos)`. -/
def Tree.cursorAtPosition (t : Tree) (charPos : Nat) : Cursor :=
  goGroup t.root 0 charPos

/-- From tree.go: the error values produced by `NewTreeFromReader` — the
`invalid UTF-8` error created in `bulkLoadIntoLeaves`, or an error from the
underlying reader (identified by a code so that propagation "unchanged" is
observable). -/
inductive TreeError where
  | invalidUtf8
  | ioError (code : Nat)
  deriving DecidableEq, Repr

/-- One result of a `Read` call on the underlying `io.Reader`: a chunk of
bytes, or a non-EOF error. The end of the list is `io.EOF`. -/
inductive ReadResult where
  | chunkBytes (bs : List Nat)
  | readFailure (code : Nat)
  deriving DecidableEq, Repr

/-- The bulk loader's mutable position: fully-built groups, the earlier nodes
of the current group, and the current node (`currentGroup` / `currentNode` in
tree.go; the current group is `doneNodes ++ [cur]`). -/
structure BulkState where
  doneGroups : List LeafGroup
  doneNodes : List Leaf
  cur : Leaf
  deriving DecidableEq, Repr

/-- From tree.go `bulkLoadIntoLeaves`, inner loop body: append one byte to the
current leaf; when the leaf holds `maxBytesPerLeaf` bytes move to the next node
slot, or to a freshly linked group when the group holds `maxNodesPerGroup`
nodes. -/
def appendByte (st : BulkState) (b : Nat) : BulkState :=
  if st.cur.length = maxBytesPerLeaf then
    if st.doneNodes.length + 1 < maxNodesPerGroup then
      ⟨st.doneGroups, st.doneNodes ++ [st.cur], [b]⟩
    else
      ⟨st.doneGroups ++ [st.doneNodes ++ [st.cur]], [], [b]⟩
  else
    ⟨st.doneGroups, st.doneNodes, st.cur ++ [b]⟩

/-- Append a whole chunk byte by byte (the `for i := 0; i < n; i++` loop). -/
def appendBytes (st : BulkState) (bs : List Nat) : BulkState := bs.foldl appendByte st

/-- The list of leaf groups held by a bulk-load state. -/
def finishGroups (st : BulkState) : List LeafGroup :=
  st.doneGroups ++ [st.doneNodes ++ [st.cur]]

/-- From tree.go `bulkLoadIntoLeaves(r, v)`: loop over the reader's results; a
non-EOF error is returned unchanged; a zero-byte read ends the loop; each
chunk is validated (`invalid UTF-8` on rejection) and appended; after the loop
`ValidateEnd` must accept. The initial state is one group with one empty
node. -/
def bulkLoadIntoLeaves :
    List ReadResult → Validator → BulkState → Except TreeError (List LeafGroup × Validator)
  | [], v, st => if validateEnd v then .ok (finishGroups st, v) else .error .invalidUtf8
  | .readFailure e :: _, _, _ => .error (.ioError e)
  | .chunkBytes [] :: _, v, st =>
    if validateEnd v then .ok (finishGroups st, v) else .error .invalidUtf8
  | .chunkBytes (b :: bs) :: rest, v, st =>
    match validateBytes v (b :: bs) with
    | none => .error .invalidUtf8
    | some v2 => bulkLoadIntoLeaves rest v2 (appendBytes st (b :: bs))

/-- The leaf groups as `nodeGroup` values, in order: in Go,
`bulkLoadIntoLeaves` returns the slice of `*leafNodeGroup` pointers, each
aliasing the `next` chain from itself onward — embedded as list suffixes. -/
def leafLayer : List LeafGroup → List nodeGroup
  | [] => []
  | g :: rest => .leafNG (g :: rest) :: leafLayer rest

/-- Split a list into consecutive runs of at most `k` elements (the grouping
performed by the `currentGroup.numNodes == maxNodesPerGroup` checks of the
builder loops). -/
def chunksOf (k : Nat) : List α → List (List α)
  | [] => []
  | x :: xs => (x :: xs.take (k - 1)) :: chunksOf k (xs.drop (k - 1))
  termination_by l => l.length
  decreasing_by simp_arith [List.length_drop]

/-- From tree.go `buildInnerNodesFromLeaves`, loop body: one inner node per
child group, whose child is that group and whose keys are copied from the
group's per-node keys (`cg.keys()`). -/
def mkInnerNode (g : nodeGroup) : List indexKey × nodeGroup := (groupKeys g, g)

/-- From tree.go `buildInnerNodesFromLeaves`, one pass of the outer loop:
group one inner node per child group into inner groups of at most
`maxNodesPerGroup` nodes. An empty child-group list yields the single empty
parent group that the Go code starts with (unreachable from construction). -/
def buildLayer (cgs : List nodeGroup) : List nodeGroup :=
  match cgs with
  | [] => [.innerNG []]
  | _ :: _ => (chunksOf maxNodesPerGroup (cgs.map mkInnerNode)).map .innerNG

theorem chunksOf_nil (k : Nat) : chunksOf k ([] : List α) = [] := by
  simp [chunksOf]

theorem chunksOf_cons (k : Nat) (x : α) (xs : List α) :
    chunksOf k (x :: xs) = (x :: xs.take (k - 1)) :: chunksOf k (xs.drop (k - 1)) := by
  rw [chunksOf]

theorem chunksOf_length_le (k : Nat) (l : List α) : (chunksOf k l).length ≤ l.length := by
  induction l using chunksOf.induct k with
  | case1 => simp [chunksOf_nil]
  | case2 x xs ih =>
    rw [chunksOf_cons]
    simp only [List.length_cons, List.length_drop] at *
    omega

theorem chunksOf_ne_nil (k : Nat) (l : List α) (h : l ≠ []) : chunksOf k l ≠ [] := by
  cases l with
  | nil => exact absurd rfl h
  | cons x xs => rw [chunksOf_cons]; simp

theorem chunksOf_length_lt (k : Nat) (l : List α) (hk : 2 ≤ k) (hl : 2 ≤ l.length) :
    (chunksOf k l).length < l.length := by
  cases l with
  | nil => simp at hl
  | cons x xs =>
    rw [chunksOf_cons]
    have := chunksOf_length_le k (xs.drop (k - 1))
    simp only [List.length_cons, List.length_drop] at *
    omega

theorem chunksOf_flatten (k : Nat) (l : List α) : (chunksOf k l).flatten = l := by
  induction l using chunksOf.induct k with
  | case1 => simp [chunksOf_nil]
  | case2 x xs ih => rw [chunksOf_cons]; simp [ih]

theorem buildLayer_ne_nil (cgs : List nodeGroup) : buildLayer cgs ≠ [] := by
  cases cgs with
  | nil => simp [buildLayer]
  | cons c cs =>
    have h1 : chunksOf maxNodesPerGroup ((c :: cs).map mkInnerNode) ≠ [] :=
      chunksOf_ne_nil _ _ (by simp)
    simp only [buildLayer]
    simpa using h1

/-- From tree.go `buildInnerNodesFromLeaves`: repeat `buildLayer` until a
single group holding a single inner node remains; that group is the root. -/
def buildInnerNodesFromLeaves (cgs : List nodeGroup) : nodeGroup :=
  if h : (buildLayer cgs).length = 1 ∧ numNodes ((buildLayer cgs).headD (.innerNG [])) = 1 then
    (buildLayer cgs).headD (.innerNG [])
  else buildInnerNodesFromLeaves (buildLayer cgs)
  termination_by cgs.length + (if cgs.isEmpty then 2 else 0)
  decreasing_by
  have hne : buildLayer cgs ≠ [] := buildLayer_ne_nil cgs
  have hbe : (buildLayer cgs).isEmpty = false := by
    cases hbl : buildLayer cgs with
    | nil => exact absurd hbl hne
    | cons a b => simp
  rw [hbe]
  cases cgs with
  | nil =>
    simp only [buildLayer, List.isEmpty_nil, if_pos]
    simp
  | cons c cs =>
    cases cs with
    | nil =>
      exfalso
      apply h
      constructor
      · simp [buildLayer, chunksOf_cons, chunksOf_nil]
      · simp [buildLayer, chunksOf_cons, chunksOf_nil, numNodes]
    | cons c2 cs2 =>
      have hlt : (buildLayer (c :: c2 :: cs2)).length < (c :: c2 :: cs2).length := by
        simp only [buildLayer]
        rw [List.length_map]
        have := chunksOf_length_lt maxNodesPerGroup ((c :: c2 :: cs2).map mkInnerNode)
          (by simp [maxNodesPerGroup, maxKeysPerNode]) (by simp)
        simpa using this
      simp only [List.isEmpty_cons, if_neg]
      omega

/-- From tree.go `NewTreeFromReader(r)`: bulk-load the leaves (propagating any
error with a nil tree), build the inner layers bottom-up, and wrap the root
and validator in a `Tree`. -/
def NewTreeFromReader (rs : List ReadResult) : Option Tree × Option TreeError :=
  match bulkLoadIntoLeaves rs newValidator ⟨[], [], []⟩ with
  | .error e => (none, some e)
  | .ok (gs, v) => (some ⟨buildInnerNodesFromLeaves (leafLayer gs), v⟩, none)

/-! ### Character counting and byte offsets -/

/-- Number of UTF-8 characters (start bytes) in a byte list — the
`numChars` component of `leafKey`. -/
def numCharsOf (l : List Nat) : Nat := (l.map utf8StartByteIndicator).sum

theorem utf8StartByteIndicator_cases (b : Nat) :
    utf8StartByteIndicator b = 0 ∨ utf8StartByteIndicator b = 1 := by
  unfold utf8StartByteIndicator
  split <;> simp

theorem numCharsOf_nil : numCharsOf [] = 0 := rfl

theorem numCharsOf_cons (b : Nat) (l : List Nat) :
    numCharsOf (b :: l) = utf8StartByteIndicator b + numCharsOf l := by
  simp [numCharsOf]

theorem numCharsOf_append (a b : List Nat) :
    numCharsOf (a ++ b) = numCharsOf a + numCharsOf b := by
  simp [numCharsOf]

theorem leafKey_numChars (l : Leaf) : (leafKey l).numChars = numCharsOf l := rfl

theorem byteOffsetForPosition_cons_lead (b : Nat) (rest : List Nat) (p : Nat)
    (hb : utf8StartByteIndicator b = 1) :
    byteOffsetForPosition (b :: rest) p =
      if p = 0 then 0 else 1 + byteOffsetForPosition rest (p - 1) := by
  simp [byteOffsetForPosition, hb]

theorem byteOffsetForPosition_cons_cont (b : Nat) (rest : List Nat) (p : Nat)
    (hb : utf8StartByteIndicator b = 0) :
    byteOffsetForPosition (b :: rest) p = 1 + byteOffsetForPosition rest p := by
  simp [byteOffsetForPosition, hb]

theorem byteOffsetForPosition_le_length (l : List Nat) (p : Nat) :
    byteOffsetForPosition l p ≤ l.length := by
  induction l generalizing p with
  | nil => simp [byteOffsetForPosition]
  | cons b rest ih =>
    rcases utf8StartByteIndicator_cases b with h | h
    · rw [byteOffsetForPosition_cons_cont b rest p h]
      have := ih p
      simp only [List.length_cons]
      omega
    · rw [byteOffsetForPosition_cons_lead b rest p h]
      have h1 := ih (p - 1)
      simp only [List.length_cons]
      split <;> omega

theorem byteOffsetForPosition_ge_chars (l : List Nat) (p : Nat) (h : numCharsOf l ≤ p) :
    byteOffsetForPosition l p = l.length := by
  induction l generalizing p with
  | nil => simp [byteOffsetForPosition]
  | cons b rest ih =>
    rw [numCharsOf_cons] at h
    rcases utf8StartByteIndicator_cases b with hb | hb
    · rw [byteOffsetForPosition_cons_cont b rest p hb, ih p (by omega)]
      simp only [List.length_cons]
      omega
    · rw [byteOffsetForPosition_cons_lead b rest p hb, if_neg (by omega : ¬p = 0),
        ih (p - 1) (by omega)]
      simp only [List.length_cons]
      omega

theorem byteOffsetForPosition_append_lt (a b : List Nat) (p : Nat) (h : p < numCharsOf a) :
    byteOffsetForPosition (a ++ b) p = byteOffsetForPosition a p := by
  induction a generalizing p with
  | nil => simp [numCharsOf_nil] at h
  | cons x rest ih =>
    rw [numCharsOf_cons] at h
    rcases utf8StartByteIndicator_cases x with hx | hx
    · rw [List.cons_append, byteOffsetForPosition_cons_cont x (rest ++ b) p hx,
        byteOffsetForPosition_cons_cont x rest p hx, ih p (by omega)]
    · rw [List.cons_append, byteOffsetForPosition_cons_lead x (rest ++ b) p hx,
        byteOffsetForPosition_cons_lead x rest p hx]
      by_cases hp : p = 0
      · simp [hp]
      · rw [if_neg hp, if_neg hp, ih (p - 1) (by omega)]

theorem byteOffsetForPosition_append_ge (a b : List Nat) (p : Nat) (h : numCharsOf a ≤ p) :
    byteOffsetForPosition (a ++ b) p = a.length + byteOffsetForPosition b (p - numCharsOf a) := by
  induction a generalizing p with
  | nil => simp [numCharsOf_nil]
  | cons x rest ih =>
    rw [numCharsOf_cons] at h
    rcases utf8StartByteIndicator_cases x with hx | hx
    · rw [List.cons_append, byteOffsetForPosition_cons_cont x (rest ++ b) p hx,
        ih p (by omega), numCharsOf_cons, hx]
      simp only [List.length_cons, Nat.zero_add]
      omega
    · rw [List.cons_append, byteOffsetForPosition_cons_lead x (rest ++ b) p hx,
        if_neg (by omega : ¬p = 0), ih (p - 1) (by omega), numCharsOf_cons, hx,
        Nat.sub_sub]
      simp only [List.length_cons]
      omega

/-! ### Cursor reading: correctness of `readLoop` -/

/-- The bytes remaining in the document from a cursor position onward: the
rest of the current node, the rest of the current group, and all following
groups. -/
def remBytes : List LeafGroup → Nat → Nat → List Nat
  | [], _, _ => []
  | g :: rest, j, o =>
    ((g.getD j []).drop o) ++ (g.drop (j + 1)).flatten ++ (rest.flatten).flatten

/-- The cursor states reachable from cursor creation: every group in the
chain holds at least one node, the node index is in range, and the byte
offset is within the current node. -/
def ValidRead (gs : List LeafGroup) (j o : Nat) : Prop :=
  (∀ g ∈ gs, g ≠ []) ∧
  (gs = [] ∨ (j < (gs.headD []).length ∧ o ≤ ((gs.headD []).getD j []).length))

theorem drop_eq_getD_cons {α : Type _} (d : α) :
    ∀ (l : List α) (i : Nat), i < l.length → l.drop i = l.getD i d :: l.drop (i + 1) := by
  intro l
  induction l with
  | nil => intro i h; simp at h
  | cons x xs ih =>
    intro i h
    cases i with
    | zero => simp
    | succ n =>
      simp only [List.drop_succ_cons, List.getD_cons_succ]
      exact ih n (by simpa using h)

theorem remBytes_zero_zero (gs : List LeafGroup) (hne : ∀ g ∈ gs, g ≠ []) :
    remBytes gs 0 0 = (gs.flatten).flatten := by
  cases gs with
  | nil => rfl
  | cons g rest =>
    have hg : g ≠ [] := hne g (by simp)
    cases g with
    | nil => exact absurd rfl hg
    | cons n ns => simp [remBytes]

theorem readLoop_zero (gs : List LeafGroup) (j o : Nat) : readLoop gs j o 0 = ([], false) := by
  rw [readLoop]

theorem readLoop_nil (j o n : Nat) : readLoop [] j o (n + 1) = ([], true) := by
  rw [readLoop]

/-- Correctness of `readLoop` on reachable cursor states: it returns the first
`space` remaining bytes, and signals end-of-stream exactly when the buffer was
strictly larger than what remained. -/
theorem readLoop_spec (gs : List LeafGroup) (j o space : Nat) (hv : ValidRead gs j o) :
    readLoop gs j o space =
      ((remBytes gs j o).take space, decide ((remBytes gs j o).length < space)) := by
  induction gs, j, o, space using readLoop.induct with
  | case1 gs j o => simp [readLoop_zero]
  | case2 j o n => simp [readLoop_nil, remBytes]
  | case3 j o g rest sp h1 h2 ih =>
    obtain ⟨hne, hpos⟩ := hv
    rcases hpos with h | ⟨hj, ho⟩
    · exact absurd h (by simp)
    simp only [List.headD_cons] at hj ho
    have hw : (sp + 1) ⊓ ((g.getD j []).length - o) = (g.getD j []).length - o := by omega
    have hsp : (g.getD j []).length - o ≤ sp + 1 := by omega
    have hvrest : ValidRead rest 0 0 := by
      refine ⟨fun g' hg' => hne g' (by simp [hg']), ?_⟩
      cases rest with
      | nil => exact Or.inl rfl
      | cons r rs =>
        refine Or.inr ⟨?_, by simp⟩
        have : r ≠ [] := hne r (by simp)
        cases r with
        | nil => exact absurd rfl this
        | cons a as => simp
    rw [readLoop]
    simp only [if_pos h1, if_pos h2, ih hvrest]
    have hdrop : g.drop (j + 1) = [] := List.drop_eq_nil_of_le (by omega)
    have hrem : remBytes (g :: rest) j o = (g.getD j []).drop o ++ (rest.flatten).flatten := by
      simp [remBytes, hdrop]
    rw [remBytes_zero_zero rest (fun g' hg' => hne g' (by simp [hg'])), hrem, hw]
    rw [Prod.mk.injEq]
    refine ⟨?_, ?_⟩
    · rw [Nat.succ_eq_add_one, List.take_append_eq_append_take]
      simp only [List.length_drop]
    · simp only [Nat.succ_eq_add_one, List.length_append, List.length_drop]
      rw [decide_eq_decide]
      omega
  | case4 j o g rest sp h1 h2 ih =>
    obtain ⟨hne, hpos⟩ := hv
    rcases hpos with h | ⟨hj, ho⟩
    · exact absurd h (by simp)
    simp only [List.headD_cons] at hj ho
    have hw : (sp + 1) ⊓ ((g.getD j []).length - o) = (g.getD j []).length - o := by omega
    have hsp : (g.getD j []).length - o ≤ sp + 1 := by omega
    have hvnext : ValidRead (g :: rest) (j + 1) 0 := by
      refine ⟨hne, Or.inr ⟨by simpa using (by omega : j + 1 < g.length), by simp⟩⟩
    rw [readLoop]
    simp only [if_pos h1, if_neg h2, ih hvnext]
    have hrem : remBytes (g :: rest) j o =
        (g.getD j []).drop o ++ remBytes (g :: rest) (j + 1) 0 := by
      simp only [remBytes, List.drop_zero]
      rw [drop_eq_getD_cons [] g (j + 1) (by omega)]
      simp
    rw [hrem, hw]
    rw [Prod.mk.injEq]
    refine ⟨?_, ?_⟩
    · rw [Nat.succ_eq_add_one, List.take_append_eq_append_take]
      simp only [List.length_drop]
    · simp only [Nat.succ_eq_add_one, List.length_append, List.length_drop]
      rw [decide_eq_decide]
      omega
  | case5 j o g rest sp h1 ih =>
    obtain ⟨hne, hpos⟩ := hv
    rcases hpos with h | ⟨hj, ho⟩
    · exact absurd h (by simp)
    simp only [List.headD_cons] at hj ho
    have hw : (sp + 1) ⊓ ((g.getD j []).length - o) = sp + 1 := by omega
    have hvsame : ValidRead (g :: rest) j (o + (sp + 1) ⊓ ((g.getD j []).length - o)) := by
      refine ⟨hne, Or.inr ⟨by simpa using hj, ?_⟩⟩
      simp only [List.headD_cons]
      omega
    rw [readLoop]
    simp only [if_neg h1]
    rw [ih hvsame]
    simp only [hw, Nat.sub_self, List.take_zero, List.append_nil,
      decide_eq_false (Nat.not_lt_zero _)]
    have hrem : remBytes (g :: rest) j o =
        (g.getD j []).drop o ++ ((g.drop (j + 1)).flatten ++ (rest.flatten).flatten) := by
      simp [remBytes]
    rw [hrem, Prod.mk.injEq]
    refine ⟨?_, ?_⟩
    · rw [Nat.succ_eq_add_one, List.take_append_eq_append_take]
      simp only [List.length_drop]
      rw [(by omega : sp + 1 - ((g.getD j []).length - o) = 0), List.take_zero,
        List.append_nil]
    · simp only [Nat.succ_eq_add_one, List.length_append, List.length_drop]
      rw [eq_comm, decide_eq_false_iff_not]
      omega

/-! ### Descent correctness -/

theorem innerDescend_nil (i c p : Nat) : innerDescend [] i c p = (i, p - c) := rfl

theorem innerDescend_single (k : indexKey) (i c p : Nat) :
    innerDescend [k] i c p = (i, p - c) := rfl

theorem innerDescend_cons2 (k k2 : indexKey) (ks : List indexKey) (i c p : Nat) :
    innerDescend (k :: k2 :: ks) i c p =
      if p < c + k.numChars then (i, p - c)
      else innerDescend (k2 :: ks) (i + 1) (c + k.numChars) p := rfl

/-- Running-offset normalization: the loop with accumulated offset `c` behaves
like the loop restarted at offset 0 on `p - c`. -/
theorem innerDescend_shift :
    ∀ (ks : List indexKey) (i c p : Nat), c ≤ p →
      innerDescend ks i c p = innerDescend ks i 0 (p - c) := by
  intro ks
  induction ks with
  | nil => intro i c p h; simp [innerDescend_nil]
  | cons k ks ih =>
    intro i c p h
    cases ks with
    | nil => simp [innerDescend_single]
    | cons k2 ks2 =>
      rw [innerDescend_cons2, innerDescend_cons2]
      by_cases hlt : p < c + k.numChars
      · rw [if_pos hlt, if_pos (by omega)]
        simp
      · rw [if_neg hlt, if_neg (by omega)]
        rw [ih (i + 1) (c + k.numChars) p (by omega),
          ih (i + 1) (0 + k.numChars) (p - c) (by omega)]
        congr 1
        omega

/-- The cursor produced at a position is in a reachable state and its
remaining bytes are the suffix of the span `B` from the `p`-th character's
byte offset, followed by all bytes after the span (`C`). A past-span `p`
yields exactly `C` since `byteOffsetForPosition` falls through to `B.length`.
This single clause is the induction invariant of the whole descent proof. -/
def NodeGood (f : Nat → Cursor) (B C : List Nat) : Prop :=
  ∀ p, ValidRead (f p).groups (f p).nodeIdx (f p).textByteOffset ∧
    remBytes (f p).groups (f p).nodeIdx (f p).textByteOffset =
      B.drop (byteOffsetForPosition B p) ++ C

theorem NodeGood_congr (f f2 : Nat → Cursor) (B C : List Nat)
    (hf : ∀ p, f p = f2 p) (h : NodeGood f B C) : NodeGood f2 B C := by
  intro p
  rw [← hf p]
  exact h p

theorem drop_append_left (A X : List α) (n : Nat) :
    (A ++ X).drop (A.length + n) = X.drop n := by
  rw [List.drop_append_eq_append_drop]
  simp

/-- Combining per-child `NodeGood` facts through the key descent of an inner
node whose stored keys are exactly the per-child keys. -/
theorem descend_good (child : nodeGroup) (C : List Nat) :
    ∀ (Bs : List (List Nat)) (i0 : Nat),
      Bs ≠ [] →
      (∀ t, t < Bs.length →
        NodeGood (fun p => goGroup child (i0 + t) p) (Bs.getD t [])
          ((Bs.drop (t + 1)).flatten ++ C)) →
      NodeGood
        (fun p => goGroup child (innerDescend (Bs.map leafKey) i0 0 p).1
                    (innerDescend (Bs.map leafKey) i0 0 p).2)
        Bs.flatten C := by
  intro Bs
  induction Bs with
  | nil => intro i0 h; exact absurd rfl h
  | cons B Bs ih =>
    intro i0 _ hch
    cases Bs with
    | nil =>
      have h0 := hch 0 (by simp)
      intro p
      simp only [List.map_cons, List.map_nil, innerDescend_single]
      have := h0 p
      simp only [Nat.add_zero, List.getD_cons_zero, List.drop_succ_cons,
        List.drop_nil, List.flatten_nil, List.nil_append] at this
      simpa [Nat.sub_zero] using this
    | cons B2 Bs2 =>
      intro p
      simp only [List.map_cons, innerDescend_cons2, Nat.zero_add]
      by_cases hlt : p < (leafKey B).numChars
      · rw [if_pos hlt]
        simp only [Nat.sub_zero]
        have h0 := (hch 0 (by simp)) p
        simp only [Nat.add_zero, List.getD_cons_zero, List.drop_succ_cons,
          Nat.sub_zero] at h0
        refine ⟨h0.1, ?_⟩
        rw [h0.2]
        rw [leafKey_numChars] at hlt
        rw [List.flatten_cons, byteOffsetForPosition_append_lt B _ p hlt,
          List.drop_append_of_le_length (byteOffsetForPosition_le_length B p)]
        simp [List.drop_zero, List.flatten_cons]
      · rw [if_neg hlt]
        rw [leafKey_numChars] at hlt
        have hge : numCharsOf B ≤ p := by omega
        rw [innerDescend_shift (leafKey B2 :: List.map leafKey Bs2) (i0 + 1)
          ((leafKey B).numChars) p (by rw [leafKey_numChars]; omega)]
        have ihh := ih (i0 + 1) (by simp)
          (fun t ht => by
            have := hch (t + 1) (by simpa using Nat.succ_lt_succ ht)
            refine NodeGood_congr _ _ _ _ (fun q => ?_) this
            rw [(by omega : i0 + (t + 1) = i0 + 1 + t)])
        have hmain := ihh (p - (leafKey B).numChars)
        rw [leafKey_numChars] at hmain
        simp only [List.map_cons] at hmain
        simp only [leafKey_numChars]
        refine ⟨hmain.1, ?_⟩
        rw [hmain.2]
        have key : List.drop (byteOffsetForPosition ((B :: B2 :: Bs2).flatten) p)
            ((B :: B2 :: Bs2).flatten) =
            List.drop (byteOffsetForPosition ((B2 :: Bs2).flatten) (p - numCharsOf B))
              ((B2 :: Bs2).flatten) := by
          rw [List.flatten_cons, byteOffsetForPosition_append_ge B _ p hge, drop_append_left]
        rw [key]

theorem goGroup_leaf (gs : List LeafGroup) (j p : Nat) :
    goGroup (.leafNG gs) j p =
      ⟨gs, j, byteOffsetForPosition ((gs.headD []).getD j []) p⟩ := by
  rw [goGroup]

theorem goGroup_inner_zero (ks : List indexKey) (child : nodeGroup)
    (tail : List (List indexKey × nodeGroup)) (p : Nat) :
    goGroup (.innerNG ((ks, child) :: tail)) 0 p =
      goGroup child (innerDescend ks 0 0 p).1 (innerDescend ks 0 0 p).2 := by
  rw [goGroup]

theorem goGroup_inner_succ (n : List indexKey × nodeGroup)
    (rest : List (List indexKey × nodeGroup)) (j p : Nat) :
    goGroup (.innerNG (n :: rest)) (j + 1) p = goGroup (.innerNG rest) j p := by
  rw [goGroup]

/-- The function run by one inner node: key descent, then recursion into the
selected child of its child group. -/
def goNode (n : List indexKey × nodeGroup) : Nat → Cursor :=
  fun p => goGroup n.2 (innerDescend n.1 0 0 p).1 (innerDescend n.1 0 0 p).2

theorem goGroup_inner_getD (ns : List (List indexKey × nodeGroup)) (j p : Nat)
    (hj : j < ns.length) :
    goGroup (.innerNG ns) j p = goNode (ns.getD j ([], .innerNG [])) p := by
  induction ns generalizing j with
  | nil => simp at hj
  | cons n rest ih =>
    cases j with
    | zero =>
      obtain ⟨ks, child⟩ := n
      rw [goGroup_inner_zero]
      rfl
    | succ j2 =>
      rw [goGroup_inner_succ, ih j2 (by simpa using hj)]
      rfl

/-- All bytes covered by a list of per-node spans or of leaf groups. -/
def allB (Bss : List (List (List Nat))) : List Nat := (Bss.flatten).flatten

/-- A nodeGroup correctly serves every node index: accurate recomputed keys,
and for every node `t` a correct cursor for its span. -/
def GoodGroup (g : nodeGroup) (Bs : List (List Nat)) (C : List Nat) : Prop :=
  groupKeys g = Bs.map leafKey ∧ Bs ≠ [] ∧
  ∀ t, t < Bs.length →
    NodeGood (fun p => goGroup g t p) (Bs.getD t []) ((Bs.drop (t + 1)).flatten ++ C)

/-- A run of inner nodes, chained left to right over consecutive spans. -/
def NodesGood : List (List indexKey × nodeGroup) → List (List Nat) → List Nat → Prop
  | [], [], _ => True
  | n :: ns, D :: Ds, C =>
      nodeKeySum n.1 = leafKey D ∧ NodeGood (goNode n) D (Ds.flatten ++ C) ∧
      NodesGood ns Ds C
  | _, _, _ => False

/-- A layer of node groups, chained left to right over consecutive spans. -/
def GroupsGood : List nodeGroup → List (List (List Nat)) → List Nat → Prop
  | [], [], _ => True
  | g :: gs, Bs :: Bss, C => GoodGroup g Bs (allB Bss ++ C) ∧ GroupsGood gs Bss C
  | _, _, _ => False

theorem keyFoldl (ks : List indexKey) : ∀ (a : indexKey),
    ks.foldl (fun x k => ⟨x.numChars + k.numChars, x.numLines + k.numLines⟩) a =
    ⟨a.numChars + (ks.map indexKey.numChars).sum, a.numLines + (ks.map indexKey.numLines).sum⟩ := by
  induction ks with
  | nil => intro a; cases a; simp
  | cons k ks ih =>
    intro a
    rw [List.foldl_cons, ih]
    cases a; cases k
    simp only [List.map_cons, List.sum_cons, indexKey.mk.injEq]
    constructor <;> omega

theorem nodeKeySum_eq (ks : List indexKey) :
    nodeKeySum ks = ⟨(ks.map indexKey.numChars).sum, (ks.map indexKey.numLines).sum⟩ := by
  unfold nodeKeySum
  rw [keyFoldl]
  simp

theorem numCharsOf_flatten (Bs : List (List Nat)) :
    numCharsOf Bs.flatten = (Bs.map numCharsOf).sum := by
  induction Bs with
  | nil => rfl
  | cons B Bs ih => rw [List.flatten_cons, numCharsOf_append, ih]; simp

theorem countLines_flatten (Bs : List (List Nat)) :
    Bs.flatten.count 10 = (Bs.map (fun B => B.count 10)).sum := by
  induction Bs with
  | nil => rfl
  | cons B Bs ih => rw [List.flatten_cons, List.count_append, ih]; simp

theorem nodeKeySum_map_leafKey (Bs : List (List Nat)) :
    nodeKeySum (Bs.map leafKey) = leafKey Bs.flatten := by
  rw [nodeKeySum_eq]
  have h1 : List.map indexKey.numChars (Bs.map leafKey) = Bs.map numCharsOf := by
    rw [List.map_map]; rfl
  have h2 : List.map indexKey.numLines (Bs.map leafKey) = Bs.map (fun B => B.count 10) := by
    rw [List.map_map]; rfl
  rw [h1, h2, ← numCharsOf_flatten, ← countLines_flatten]
  rfl

theorem allB_nil : allB [] = [] := rfl

theorem allB_cons (Bs : List (List Nat)) (Bss : List (List (List Nat))) :
    allB (Bs :: Bss) = Bs.flatten ++ allB Bss := by
  simp [allB]

theorem allB_eq_map (Bss : List (List (List Nat))) :
    allB Bss = (Bss.map (fun bs => bs.flatten)).flatten := by
  induction Bss with
  | nil => rfl
  | cons Bs Bss ih => rw [allB_cons, List.map_cons, List.flatten_cons, ih]

theorem groupsGood_to_nodesGood :
    ∀ (gs : List nodeGroup) (Bss : List (List (List Nat))) (C : List Nat),
      GroupsGood gs Bss C →
      NodesGood (gs.map mkInnerNode) (Bss.map (fun bs => bs.flatten)) C := by
  intro gs
  induction gs with
  | nil =>
    intro Bss C h
    cases Bss with
    | nil => trivial
    | cons Bs Bss => exact absurd h (by simp [GroupsGood])
  | cons g gs ih =>
    intro Bss C h
    cases Bss with
    | nil => exact absurd h (by simp [GroupsGood])
    | cons Bs Bss =>
      obtain ⟨hgg, hrest⟩ := h
      obtain ⟨hkeys, hBne, hchain⟩ := hgg
      refine ⟨?_, ?_, ih Bss C hrest⟩
      · show nodeKeySum (groupKeys g) = leafKey Bs.flatten
        rw [hkeys, nodeKeySum_map_leafKey]
      · show NodeGood (goNode (mkInnerNode g)) Bs.flatten
          ((Bss.map (fun bs => bs.flatten)).flatten ++ C)
        rw [← allB_eq_map]
        have hd := descend_good g (allB Bss ++ C) Bs 0 hBne
          (fun t ht => NodeGood_congr _ _ _ _
            (fun q => by rw [Nat.zero_add]) (hchain t ht))
        refine NodeGood_congr _ _ _ _ (fun q => ?_) hd
        simp only [goNode, mkInnerNode]
        rw [hkeys]

theorem nodesGood_length :
    ∀ ns Ds (C : List Nat), NodesGood ns Ds C → ns.length = Ds.length := by
  intro ns
  induction ns with
  | nil =>
    intro Ds C h
    cases Ds with
    | nil => rfl
    | cons D Ds => exact absurd h (by simp [NodesGood])
  | cons n ns ih =>
    intro Ds C h
    cases Ds with
    | nil => exact absurd h (by simp [NodesGood])
    | cons D Ds =>
      obtain ⟨-, -, hrest⟩ := h
      simpa using ih Ds C hrest

theorem nodesGood_groupKeys :
    ∀ ns Ds (C : List Nat), NodesGood ns Ds C →
      groupKeys (.innerNG ns) = Ds.map leafKey := by
  intro ns
  induction ns with
  | nil =>
    intro Ds C h
    cases Ds with
    | nil => rfl
    | cons D Ds => exact absurd h (by simp [NodesGood])
  | cons n ns ih =>
    intro Ds C h
    cases Ds with
    | nil => exact absurd h (by simp [NodesGood])
    | cons D Ds =>
      obtain ⟨hk, -, hrest⟩ := h
      have := ih Ds C hrest
      simp only [groupKeys, List.map_cons] at this ⊢
      rw [hk, this]

theorem nodesGood_getD :
    ∀ ns Ds (C : List Nat) t, NodesGood ns Ds C → t < Ds.length →
      NodeGood (goNode (ns.getD t ([], .innerNG []))) (Ds.getD t [])
        ((Ds.drop (t + 1)).flatten ++ C) := by
  intro ns
  induction ns with
  | nil =>
    intro Ds C t h ht
    cases Ds with
    | nil => simp at ht
    | cons D Ds => exact absurd h (by simp [NodesGood])
  | cons n ns ih =>
    intro Ds C t h ht
    cases Ds with
    | nil => exact absurd h (by simp [NodesGood])
    | cons D Ds =>
      obtain ⟨-, hgood, hrest⟩ := h
      cases t with
      | zero => simpa using hgood
      | succ t2 =>
        simp only [List.getD_cons_succ, List.drop_succ_cons]
        exact ih Ds C t2 hrest (by simpa using ht)

theorem nodesGood_to_goodGroup (ns : List (List indexKey × nodeGroup))
    (Ds : List (List Nat)) (C : List Nat) (h : NodesGood ns Ds C) (hne : Ds ≠ []) :
    GoodGroup (.innerNG ns) Ds C := by
  refine ⟨nodesGood_groupKeys ns Ds C h, hne, fun t ht => ?_⟩
  have hlen := nodesGood_length ns Ds C h
  refine NodeGood_congr _ _ _ _ (fun p => ?_) (nodesGood_getD ns Ds C t h ht)
  rw [goGroup_inner_getD ns t p (by omega)]

theorem nodesGood_split :
    ∀ xs as ys bs (C : List Nat), xs.length = as.length →
      NodesGood (xs ++ ys) (as ++ bs) C →
      NodesGood xs as (bs.flatten ++ C) ∧ NodesGood ys bs C := by
  intro xs
  induction xs with
  | nil =>
    intro as ys bs C hlen h
    cases as with
    | nil => exact ⟨trivial, by simpa using h⟩
    | cons a as => simp at hlen
  | cons x xs ih =>
    intro as ys bs C hlen h
    cases as with
    | nil => simp at hlen
    | cons a as =>
      simp only [List.cons_append] at h
      obtain ⟨hk, hgood, hrest⟩ := h
      obtain ⟨h1, h2⟩ := ih as ys bs C (by simpa using hlen) hrest
      refine ⟨⟨hk, ?_, h1⟩, h2⟩
      rw [List.flatten_append, List.append_assoc] at hgood
      exact hgood

theorem nodesGood_chunks (k : Nat) :
    ∀ ns Ds (C : List Nat), NodesGood ns Ds C →
      GroupsGood ((chunksOf k ns).map .innerNG) (chunksOf k Ds) C := by
  intro ns
  induction ns using chunksOf.induct k with
  | case1 =>
    intro Ds C h
    cases Ds with
    | nil => rw [chunksOf_nil, chunksOf_nil]; trivial
    | cons D Ds => exact absurd h (by simp [NodesGood])
  | case2 n ns ih =>
    intro Ds C h
    cases Ds with
    | nil => exact absurd h (by simp [NodesGood])
    | cons D Ds =>
      rw [chunksOf_cons, chunksOf_cons, List.map_cons]
      have hlen : ns.length = Ds.length := by
        simpa using nodesGood_length _ _ _ h
      have hsplit := nodesGood_split (n :: ns.take (k - 1)) (D :: Ds.take (k - 1))
        (ns.drop (k - 1)) (Ds.drop (k - 1)) C
        (by simp [hlen]) (by simpa [List.take_append_drop] using h)
      obtain ⟨h1, h2⟩ := hsplit
      constructor
      · have hgg := nodesGood_to_goodGroup _ _ _ h1 (by simp)
        have hall : allB (chunksOf k (Ds.drop (k - 1))) = (Ds.drop (k - 1)).flatten := by
          rw [allB, chunksOf_flatten]
        rw [hall]
        exact hgg
      · exact ih (Ds.drop (k - 1)) C h2

theorem buildLayer_good (cgs : List nodeGroup) (Bss : List (List (List Nat)))
    (C : List Nat) (h : GroupsGood cgs Bss C) (hne : cgs ≠ []) :
    GroupsGood (buildLayer cgs)
      (chunksOf maxNodesPerGroup (Bss.map (fun bs => bs.flatten))) C := by
  cases cgs with
  | nil => exact absurd rfl hne
  | cons c cs =>
    show GroupsGood ((chunksOf maxNodesPerGroup ((c :: cs).map mkInnerNode)).map .innerNG) _ C
    exact nodesGood_chunks maxNodesPerGroup _ _ C (groupsGood_to_nodesGood _ _ C h)

theorem leafLayer_good :
    ∀ (GS : List LeafGroup), (∀ g ∈ GS, g ≠ []) → GroupsGood (leafLayer GS) GS [] := by
  intro GS
  induction GS with
  | nil => intro _; trivial
  | cons g rest ih =>
    intro hne
    refine ⟨⟨rfl, hne g (by simp), fun t ht => ?_⟩, ih (fun x hx => hne x (by simp [hx]))⟩
    intro p
    simp only [goGroup_leaf]
    simp only [List.headD_cons]
    constructor
    · refine ⟨hne, Or.inr ⟨by simpa using ht, ?_⟩⟩
      simp only [List.headD_cons]
      exact byteOffsetForPosition_le_length _ p
    · simp only [remBytes, allB, List.append_nil, List.append_assoc]

theorem buildLayer_all_inner (cgs : List nodeGroup) :
    ∀ x ∈ buildLayer cgs, ∃ ns, x = .innerNG ns := by
  cases cgs with
  | nil =>
    intro x hx
    simp only [buildLayer, List.mem_singleton] at hx
    exact ⟨[], hx⟩
  | cons c cs =>
    intro x hx
    simp only [buildLayer, List.mem_map] at hx
    obtain ⟨ns, -, rfl⟩ := hx
    exact ⟨ns, rfl⟩

theorem allB_chunks (k : Nat) (Bss : List (List (List Nat))) :
    allB (chunksOf k (Bss.map (fun bs => bs.flatten))) = allB Bss := by
  rw [allB, chunksOf_flatten, ← allB_eq_map]

theorem buildInner_eq_pos (cgs : List nodeGroup)
    (h : (buildLayer cgs).length = 1 ∧ numNodes ((buildLayer cgs).headD (.innerNG [])) = 1) :
    buildInnerNodesFromLeaves cgs = (buildLayer cgs).headD (.innerNG []) := by
  rw [buildInnerNodesFromLeaves, dif_pos h]

theorem buildInner_eq_neg (cgs : List nodeGroup)
    (h : ¬((buildLayer cgs).length = 1 ∧ numNodes ((buildLayer cgs).headD (.innerNG [])) = 1)) :
    buildInnerNodesFromLeaves cgs = buildInnerNodesFromLeaves (buildLayer cgs) := by
  conv_lhs => rw [buildInnerNodesFromLeaves]
  rw [dif_neg h]

/-- Bottom-up construction yields a root inner group with exactly one inner
node, correct for the whole document. -/
theorem buildInner_good :
    ∀ cgs Bss (C : List Nat), GroupsGood cgs Bss C → cgs ≠ [] →
      ∃ ns D, buildInnerNodesFromLeaves cgs = .innerNG ns ∧ ns.length = 1 ∧
        GoodGroup (.innerNG ns) [D] C ∧ D = allB Bss := by
  intro cgs
  induction cgs using buildInnerNodesFromLeaves.induct with
  | case1 cgs hcond =>
    intro Bss C h hne
    have hlg := buildLayer_good cgs Bss C h hne
    have hlen1 := hcond.1
    have hnum := hcond.2
    obtain ⟨g, hg⟩ : ∃ g, buildLayer cgs = [g] := by
      cases hbl : buildLayer cgs with
      | nil => exact absurd hbl (buildLayer_ne_nil cgs)
      | cons a l =>
        cases l with
        | nil => exact ⟨a, rfl⟩
        | cons b l2 => rw [hbl] at hlen1; simp at hlen1
    obtain ⟨ns, rfl⟩ := buildLayer_all_inner cgs g (by rw [hg]; simp)
    rw [hg] at hlg hnum
    simp only [List.headD_cons] at hnum
    have hns1 : ns.length = 1 := by simpa [numNodes] using hnum
    rw [buildInner_eq_pos cgs hcond, hg]
    simp only [List.headD_cons]
    set newBss := chunksOf maxNodesPerGroup (Bss.map (fun bs => bs.flatten)) with hnewdef
    obtain ⟨Bs, hBs⟩ : ∃ Bs, newBss = [Bs] := by
      cases hnb : newBss with
      | nil => rw [hnb] at hlg; exact absurd hlg (by simp [GroupsGood])
      | cons Bs Bss2 =>
        cases Bss2 with
        | nil => exact ⟨Bs, rfl⟩
        | cons B2 Bss3 =>
          rw [hnb] at hlg
          exact absurd hlg.2 (by simp [GroupsGood])
    rw [hBs] at hlg
    obtain ⟨hgg, -⟩ := hlg
    rw [allB_nil, List.nil_append] at hgg
    have hBlen : Bs.length = 1 := by
      have hh : (groupKeys (.innerNG ns)).length = (Bs.map leafKey).length := by rw [hgg.1]
      simp only [groupKeys, List.length_map, hns1] at hh
      omega
    obtain ⟨D, hD⟩ : ∃ D, Bs = [D] := by
      cases Bs with
      | nil => simp at hBlen
      | cons D t =>
        cases t with
        | nil => exact ⟨D, rfl⟩
        | cons e t2 => simp at hBlen
    have hDall : D = allB Bss := by
      have h1 : allB newBss = allB Bss := allB_chunks maxNodesPerGroup Bss
      rw [hBs, hD] at h1
      simpa [allB] using h1
    exact ⟨ns, D, rfl, hns1, hD ▸ hgg, hDall⟩
  | case2 cgs hcond ih =>
    intro Bss C h hne
    have hlg := buildLayer_good cgs Bss C h hne
    obtain ⟨ns, D, heq, hlen, hgg, hD⟩ :=
      ih _ C hlg (buildLayer_ne_nil cgs)
    refine ⟨ns, D, ?_, hlen, hgg, ?_⟩
    · rw [buildInner_eq_neg cgs hcond, heq]
    · rw [hD, allB_chunks]

/-! ### Bulk loader state -/

/-- All bytes held by a bulk-load state, in document order. -/
def stateBytes (st : BulkState) : List Nat :=
  allB st.doneGroups ++ st.doneNodes.flatten ++ st.cur

theorem appendByte_bytes (st : BulkState) (b : Nat) :
    stateBytes (appendByte st b) = stateBytes st ++ [b] := by
  unfold appendByte stateBytes
  split
  · split <;> simp [allB, List.flatten_append]
  · simp

theorem appendBytes_bytes (bs : List Nat) :
    ∀ (st : BulkState), stateBytes (appendBytes st bs) = stateBytes st ++ bs := by
  induction bs with
  | nil => intro st; simp [appendBytes]
  | cons b bs ih =>
    intro st
    show stateBytes (appendBytes (appendByte st b) bs) = _
    rw [ih, appendByte_bytes, List.append_assoc]
    rfl

theorem finishGroups_bytes (st : BulkState) :
    allB (finishGroups st) = stateBytes st := by
  unfold finishGroups stateBytes
  simp [allB, List.flatten_append]

theorem appendByte_ne (st : BulkState) (b : Nat)
    (h : ∀ g ∈ st.doneGroups, g ≠ []) :
    ∀ g ∈ (appendByte st b).doneGroups, g ≠ [] := by
  unfold appendByte
  split
  · split
    · exact h
    · intro g hg
      simp only [List.mem_append, List.mem_singleton] at hg
      rcases hg with hg | rfl
      · exact h g hg
      · simp
  · exact h

theorem appendBytes_ne (bs : List Nat) :
    ∀ (st : BulkState), (∀ g ∈ st.doneGroups, g ≠ []) →
      ∀ g ∈ (appendBytes st bs).doneGroups, g ≠ [] := by
  induction bs with
  | nil => intro st h; exact h
  | cons b bs ih =>
    intro st h
    exact ih (appendByte st b) (appendByte_ne st b h)

theorem finishGroups_ne (st : BulkState) (h : ∀ g ∈ st.doneGroups, g ≠ []) :
    ∀ g ∈ finishGroups st, g ≠ [] := by
  intro g hg
  unfold finishGroups at hg
  simp only [List.mem_append, List.mem_singleton] at hg
  rcases hg with hg | rfl
  · exact h g hg
  · simp

theorem finishGroups_nonempty (st : BulkState) : finishGroups st ≠ [] := by
  unfold finishGroups
  simp

/-- The root node group the pipeline builds from a byte sequence: the leaf
groups of the bulk loader fed into the bottom-up builder. -/
def rootForBytes (S : List Nat) : nodeGroup :=
  buildInnerNodesFromLeaves (leafLayer (finishGroups (appendBytes ⟨[], [], []⟩ S)))

theorem leafLayer_ne_nil (GS : List LeafGroup) (h : GS ≠ []) : leafLayer GS ≠ [] := by
  cases GS with
  | nil => exact absurd rfl h
  | cons g rest => simp [leafLayer]

/-- Central theorem: on the tree built from any byte sequence `S`, the cursor
at character position `p` reads exactly the suffix of `S` from the byte offset
of the `p`-th character (`S.length` when `p` is at or past the end), with
end-of-stream signalled exactly when the buffer exceeds that suffix. -/
theorem read_from_root (S : List Nat) (p bufLen : Nat) :
    (goGroup (rootForBytes S) 0 p).read bufLen =
      ((S.drop (byteOffsetForPosition S p)).take bufLen,
        decide ((S.drop (byteOffsetForPosition S p)).length < bufLen)) := by
  have hne : ∀ g ∈ finishGroups (appendBytes ⟨[], [], []⟩ S), g ≠ [] :=
    finishGroups_ne _ (appendBytes_ne S _ (by intro g hg; simp at hg))
  have hbytes : allB (finishGroups (appendBytes ⟨[], [], []⟩ S)) = S := by
    rw [finishGroups_bytes, appendBytes_bytes]
    rfl
  have hgg := leafLayer_good _ hne
  obtain ⟨ns, D, heq, hlen, hgood, hD⟩ :=
    buildInner_good _ _ [] hgg (leafLayer_ne_nil _ (finishGroups_nonempty _))
  rw [hbytes] at hD
  obtain ⟨-, -, hchain⟩ := hgood
  have h0 := hchain 0 (by simp)
  simp only [List.getD_cons_zero, List.drop_succ_cons, List.drop_nil,
    List.flatten_nil, List.nil_append, List.append_nil] at h0
  have hp : ValidRead (goGroup (.innerNG ns) 0 p).groups (goGroup (.innerNG ns) 0 p).nodeIdx
      (goGroup (.innerNG ns) 0 p).textByteOffset ∧
      remBytes (goGroup (.innerNG ns) 0 p).groups (goGroup (.innerNG ns) 0 p).nodeIdx
        (goGroup (.innerNG ns) 0 p).textByteOffset =
        D.drop (byteOffsetForPosition D p) ++ [] := h0 p
  show (goGroup (rootForBytes S) 0 p).read bufLen = _
  rw [rootForBytes, heq]
  unfold Cursor.read
  rw [readLoop_spec _ _ _ bufLen hp.1, hp.2, hD]
  simp

/-! ### Validator runs -/

theorem validateBytes_append (a b : List Nat) : ∀ (v : Validator),
    validateBytes v (a ++ b) =
      match validateBytes v a with
      | none => none
      | some v2 => validateBytes v2 b := by
  induction a with
  | nil => intro v; rfl
  | cons x a ih =>
    intro v
    show validateBytes v (x :: (a ++ b)) = _
    cases hstep : validatorStep v x with
    | none => simp only [validateBytes, hstep]
    | some v2 =>
      simp only [validateBytes, hstep]
      exact ih v2

theorem acceptedFrom_cons (v : Validator) (b : Nat) (T : List Nat) :
    acceptedUtf8From v (b :: T) =
      match validatorStep v b with
      | none => false
      | some v2 => acceptedUtf8From v2 T := by
  unfold acceptedUtf8From
  rw [validateBytes]
  cases validatorStep v b <;> rfl

theorem acceptedFrom_nil (v : Validator) : acceptedUtf8From v [] = validateEnd v := rfl

/-- Validator states reachable from `newValidator`. -/
def StateOK (v : Validator) : Prop :=
  (v.need = 0 → v = newValidator) ∧ 0x80 ≤ v.lo ∧ v.hi ≤ 0xBF

theorem stateOK_new : StateOK newValidator := ⟨fun _ => rfl, by simp [newValidator], by simp [newValidator]⟩

theorem step_stateOK (v : Validator) (b : Nat) (v2 : Validator)
    (h : validatorStep v b = some v2) : StateOK v2 := by
  unfold validatorStep at h
  split_ifs at h <;>
    first
      | exact Option.noConfusion h
      | (obtain rfl := Option.some.inj h
         exact ⟨fun hn => by first | rfl | exact absurd hn (by decide),
           by decide, by decide⟩)
      | (obtain rfl := Option.some.inj h
         refine ⟨fun hn => ?_, Nat.le_refl 128, Nat.le_refl 191⟩
         have hn2 : v.need - 1 = 0 := hn
         exfalso
         omega)

theorem step_cont (v : Validator) (b : Nat) (v2 : Validator)
    (hneed : v.need ≠ 0) (hok : StateOK v) (h : validatorStep v b = some v2) :
    utf8StartByteIndicator b = 0 ∧ v2 = ⟨v.need - 1, 0x80, 0xBF⟩ := by
  obtain ⟨-, hlo, hhi⟩ := hok
  unfold validatorStep at h
  rw [if_neg hneed] at h
  split_ifs at h with hrange hone
  · obtain rfl := Option.some.inj h
    refine ⟨?_, by rw [hone]⟩
    unfold utf8StartByteIndicator
    rw [if_neg (by omega)]
  · obtain rfl := Option.some.inj h
    refine ⟨?_, rfl⟩
    unfold utf8StartByteIndicator
    rw [if_neg (by omega)]

theorem step_lead (b : Nat) (v2 : Validator)
    (h : validatorStep newValidator b = some v2) : utf8StartByteIndicator b = 1 := by
  unfold validatorStep at h
  rw [if_pos (by rfl)] at h
  unfold utf8StartByteIndicator
  split_ifs at h <;> first
    | exact Option.noConfusion h
    | rw [if_pos (by omega)]

theorem drain_continuations :
    ∀ (n : Nat) (v : Validator) (T : List Nat), StateOK v → v.need = n →
      acceptedUtf8From v T = true →
      ∃ cs T2, T = cs ++ T2 ∧ (∀ x ∈ cs, utf8StartByteIndicator x = 0) ∧
        acceptedUtf8From newValidator T2 = true := by
  intro n
  induction n with
  | zero =>
    intro v T hok hneed hacc
    refine ⟨[], T, rfl, by simp, ?_⟩
    rw [← hok.1 hneed]
    exact hacc
  | succ n ih =>
    intro v T hok hneed hacc
    cases T with
    | nil =>
      rw [acceptedFrom_nil] at hacc
      unfold validateEnd at hacc
      rw [hneed] at hacc
      simp at hacc
    | cons b T1 =>
      rw [acceptedFrom_cons] at hacc
      cases hstep : validatorStep v b with
      | none => rw [hstep] at hacc; simp at hacc
      | some v1 =>
        rw [hstep] at hacc
        obtain ⟨hb0, rfl⟩ := step_cont v b v1 (by omega) hok hstep
        have hok1 : StateOK (⟨v.need - 1, 0x80, 0xBF⟩ : Validator) := by
          refine ⟨fun hz => ?_, by simp, by simp⟩
          simp only at hz
          unfold newValidator
          rw [hz]
        obtain ⟨cs, T2, rfl, hcs, hT2⟩ :=
          ih ⟨v.need - 1, 0x80, 0xBF⟩ T1 hok1 (by simp; omega) hacc
        refine ⟨b :: cs, T2, rfl, ?_, hT2⟩
        intro x hx
        rcases List.mem_cons.mp hx with rfl | hx
        · exact hb0
        · exact hcs x hx

theorem char_peel (b : Nat) (T : List Nat)
    (h : acceptedUtf8From newValidator (b :: T) = true) :
    utf8StartByteIndicator b = 1 ∧
    ∃ cs T2, T = cs ++ T2 ∧ (∀ x ∈ cs, utf8StartByteIndicator x = 0) ∧
      acceptedUtf8From newValidator T2 = true := by
  rw [acceptedFrom_cons] at h
  cases hstep : validatorStep newValidator b with
  | none => rw [hstep] at h; simp at h
  | some v1 =>
    rw [hstep] at h
    exact ⟨step_lead b v1 hstep,
      drain_continuations v1.need v1 T (step_stateOK _ _ _ hstep) rfl h⟩

theorem byteOffsetForPosition_nonlead_skip (cs : List Nat)
    (hcs : ∀ x ∈ cs, utf8StartByteIndicator x = 0) (X : List Nat) (p : Nat) :
    byteOffsetForPosition (cs ++ X) p = cs.length + byteOffsetForPosition X p := by
  induction cs with
  | nil => simp
  | cons c cs ih =>
    rw [List.cons_append,
      byteOffsetForPosition_cons_cont c _ p (hcs c (by simp)),
      ih (fun x hx => hcs x (by simp [hx]))]
    simp only [List.length_cons]
    omega

theorem accepted_nil : acceptedUtf8 [] = true := rfl

/-- A UTF-8-valid byte sequence remains valid after dropping the prefix before
any character position: the cursor's output never starts or ends inside a
multi-byte character. -/
theorem accepted_drop :
    ∀ (N : Nat) (S : List Nat), S.length ≤ N → acceptedUtf8 S = true → ∀ (p : Nat),
      acceptedUtf8 (S.drop (byteOffsetForPosition S p)) = true := by
  intro N
  induction N with
  | zero =>
    intro S hlen hacc p
    have : S = [] := List.length_eq_zero.mp (by omega)
    subst this
    simpa [byteOffsetForPosition] using hacc
  | succ N ih =>
    intro S hlen hacc p
    cases S with
    | nil => simpa [byteOffsetForPosition] using hacc
    | cons b T =>
      obtain ⟨hb1, cs, T2, rfl, hcs, hT2⟩ := char_peel b T hacc
      cases p with
      | zero =>
        rw [byteOffsetForPosition_cons_lead b _ 0 hb1, if_pos rfl]
        exact hacc
      | succ p2 =>
        rw [byteOffsetForPosition_cons_lead b _ (p2 + 1) hb1,
          if_neg (by omega), Nat.add_sub_cancel,
          byteOffsetForPosition_nonlead_skip cs hcs T2 p2]
        have hdrop : (b :: (cs ++ T2)).drop
            (1 + (cs.length + byteOffsetForPosition T2 p2)) =
            T2.drop (byteOffsetForPosition T2 p2) := by
          rw [(by omega : 1 + (cs.length + byteOffsetForPosition T2 p2) =
            (cs.length + byteOffsetForPosition T2 p2) + 1)]
          rw [List.drop_succ_cons, drop_append_left]
        rw [hdrop]
        refine ih T2 ?_ hT2 p2
        have := List.length_append cs T2
        simp only [List.length_cons] at hlen
        omega

theorem acceptedUtf8_iff (S : List Nat) :
    acceptedUtf8 S = true ↔
      ∃ v2, validateBytes newValidator S = some v2 ∧ v2.need = 0 := by
  unfold acceptedUtf8 acceptedUtf8From
  cases h : validateBytes newValidator S with
  | none => simp
  | some v2 =>
    constructor
    · intro hend
      exact ⟨v2, rfl, by simpa [validateEnd] using hend⟩
    · rintro ⟨v3, heq, hneed⟩
      obtain rfl := Option.some.inj heq
      simp [validateEnd, hneed]

theorem appendBytes_append (st : BulkState) (a b : List Nat) :
    appendBytes st (a ++ b) = appendBytes (appendBytes st a) b := by
  unfold appendBytes
  rw [List.foldl_append]

theorem bulkLoad_ok_of_valid :
    ∀ (chunks : List (List Nat)), (∀ c ∈ chunks, c ≠ []) →
      ∀ (v : Validator) (st : BulkState) (v2 : Validator),
        validateBytes v chunks.flatten = some v2 → v2.need = 0 →
        bulkLoadIntoLeaves (chunks.map .chunkBytes) v st =
          .ok (finishGroups (appendBytes st chunks.flatten), v2) := by
  intro chunks
  induction chunks with
  | nil =>
    intro _ v st v2 hv hend
    simp only [List.flatten_nil] at hv
    obtain rfl := Option.some.inj hv
    show bulkLoadIntoLeaves [] v st = _
    rw [bulkLoadIntoLeaves, if_pos (by simpa [validateEnd] using hend)]
    rfl
  | cons c cs ih =>
    intro hne v st v2 hv hend
    cases c with
    | nil => exact absurd rfl (hne [] (by simp))
    | cons b bs =>
      simp only [List.flatten_cons] at hv
      rw [validateBytes_append] at hv
      cases hm : validateBytes v (b :: bs) with
      | none => rw [hm] at hv; exact Option.noConfusion hv
      | some vm =>
        rw [hm] at hv
        have hv2 : validateBytes vm cs.flatten = some v2 := hv
        show bulkLoadIntoLeaves (.chunkBytes (b :: bs) :: cs.map .chunkBytes) v st = _
        rw [bulkLoadIntoLeaves, hm]
        show bulkLoadIntoLeaves (cs.map .chunkBytes) vm (appendBytes st (b :: bs)) = _
        rw [ih (fun c h => hne c (by simp [h])) vm (appendBytes st (b :: bs)) v2 hv2 hend,
          List.flatten_cons, appendBytes_append]

theorem newTreeFromReader_ok (chunks : List (List Nat)) (hne : ∀ c ∈ chunks, c ≠ [])
    (hacc : acceptedUtf8 chunks.flatten = true) :
    ∃ v2, NewTreeFromReader (chunks.map .chunkBytes) =
      (some ⟨rootForBytes chunks.flatten, v2⟩, none) := by
  obtain ⟨v2, hv, hend⟩ := (acceptedUtf8_iff _).mp hacc
  refine ⟨v2, ?_⟩
  unfold NewTreeFromReader
  rw [bulkLoad_ok_of_valid chunks hne newValidator ⟨[], [], []⟩ v2 hv hend]
  rfl

theorem accepted_byteOffset_zero (S : List Nat) (h : acceptedUtf8 S = true) :
    byteOffsetForPosition S 0 = 0 := by
  cases S with
  | nil => rfl
  | cons b T =>
    obtain ⟨hb1, -⟩ := char_peel b T h
    rw [byteOffsetForPosition_cons_lead b T 0 hb1, if_pos rfl]

/-! ### Character segmentation of a UTF-8 byte sequence -/

theorem length_dropWhile_le (f : Nat → Bool) (l : List Nat) :
    (l.dropWhile f).length ≤ l.length := by
  induction l with
  | nil => simp
  | cons x xs ih =>
    rw [List.dropWhile_cons]
    split
    · simp only [List.length_cons]; omega
    · simp

/-- The byte sequence cut into its UTF-8 characters: each segment is a start
byte followed by the continuation (non-start) bytes encoding the same
character. -/
def charSeg (S : List Nat) : List (List Nat) :=
  match S with
  | [] => []
  | b :: rest =>
    (b :: rest.takeWhile (fun x => utf8StartByteIndicator x == 0)) ::
      charSeg (rest.dropWhile (fun x => utf8StartByteIndicator x == 0))
  termination_by S.length
  decreasing_by
    have := length_dropWhile_le (fun x => utf8StartByteIndicator x == 0) rest
    simp only [List.length_cons]
    omega

theorem charSeg_nil : charSeg [] = [] := by rw [charSeg]

theorem charSeg_cons (b : Nat) (rest : List Nat) :
    charSeg (b :: rest) =
      (b :: rest.takeWhile (fun x => utf8StartByteIndicator x == 0)) ::
        charSeg (rest.dropWhile (fun x => utf8StartByteIndicator x == 0)) := by
  rw [charSeg]

theorem takeWhile_dropWhile_split (f : Nat → Bool) :
    ∀ (cs T2 : List Nat), (∀ x ∈ cs, f x = true) →
      (T2 = [] ∨ ∃ y t, T2 = y :: t ∧ f y = false) →
      (cs ++ T2).takeWhile f = cs ∧ (cs ++ T2).dropWhile f = T2 := by
  intro cs
  induction cs with
  | nil =>
    intro T2 _ hT2
    rcases hT2 with rfl | ⟨y, t, rfl, hy⟩
    · simp
    · simp [List.takeWhile, List.dropWhile, hy]
  | cons c cs ih =>
    intro T2 hcs hT2
    have hc : f c = true := hcs c (by simp)
    obtain ⟨h1, h2⟩ := ih T2 (fun x hx => hcs x (by simp [hx])) hT2
    constructor
    · rw [List.cons_append, List.takeWhile_cons, if_pos hc, h1]
    · rw [List.cons_append, List.dropWhile_cons, if_pos hc, h2]

theorem charSeg_flatten :
    ∀ (N : Nat) (S : List Nat), S.length ≤ N → (charSeg S).flatten = S := by
  intro N
  induction N with
  | zero =>
    intro S hlen
    have : S = [] := List.length_eq_zero.mp (by omega)
    subst this
    simp [charSeg_nil]
  | succ N ih =>
    intro S hlen
    cases S with
    | nil => simp [charSeg_nil]
    | cons b rest =>
      rw [charSeg_cons, List.flatten_cons,
        ih (rest.dropWhile (fun x => utf8StartByteIndicator x == 0))
          (by
            have := length_dropWhile_le (fun x => utf8StartByteIndicator x == 0) rest
            simp only [List.length_cons] at hlen
            omega)]
      rw [List.cons_append, List.takeWhile_append_dropWhile]

/-- On a valid byte sequence, reading the suffix from the `p`-th character's
byte offset yields exactly the encoding of the character suffix from `p`. -/
theorem charSeg_drop :
    ∀ (N : Nat) (S : List Nat), S.length ≤ N → acceptedUtf8 S = true → ∀ (p : Nat),
      ((charSeg S).drop p).flatten = S.drop (byteOffsetForPosition S p) := by
  intro N
  induction N with
  | zero =>
    intro S hlen _ p
    have : S = [] := List.length_eq_zero.mp (by omega)
    subst this
    simp [charSeg_nil, byteOffsetForPosition]
  | succ N ih =>
    intro S hlen hacc p
    cases S with
    | nil => simp [charSeg_nil, byteOffsetForPosition]
    | cons b T =>
      obtain ⟨hb1, cs, T2, rfl, hcs, hT2⟩ := char_peel b T hacc
      have hsplit := takeWhile_dropWhile_split (fun x => utf8StartByteIndicator x == 0)
        cs T2 (fun x hx => by simp [hcs x hx]) ?hside
      case hside =>
        cases T2 with
        | nil => exact Or.inl rfl
        | cons y t =>
          obtain ⟨hy1, -⟩ := char_peel y t hT2
          exact Or.inr ⟨y, t, rfl, by simp [hy1]⟩
      obtain ⟨htake, hdropw⟩ := hsplit
      rw [charSeg_cons, htake, hdropw]
      cases p with
      | zero =>
        rw [accepted_byteOffset_zero _ hacc]
        simp only [List.drop_zero, List.flatten_cons]
        rw [charSeg_flatten T2.length T2 (Nat.le_refl _)]
        simp
      | succ p2 =>
        rw [byteOffsetForPosition_cons_lead b _ (p2 + 1) hb1,
          if_neg (by omega), Nat.add_sub_cancel,
          byteOffsetForPosition_nonlead_skip cs hcs T2 p2]
        have hdrop : (b :: (cs ++ T2)).drop
            (1 + (cs.length + byteOffsetForPosition T2 p2)) =
            T2.drop (byteOffsetForPosition T2 p2) := by
          rw [(by omega : 1 + (cs.length + byteOffsetForPosition T2 p2) =
            (cs.length + byteOffsetForPosition T2 p2) + 1)]
          rw [List.drop_succ_cons, drop_append_left]
        rw [hdrop, List.drop_succ_cons]
        refine ih T2 ?_ hT2 p2
        have := List.length_append cs T2
        simp only [List.length_cons] at hlen
        omega

/-! ### Root key and key-aggregation invariant -/

/-- The aggregate key reported by the root inner node (`innerNode.key()` on
`root.nodes[0]`). -/
def rootKeyOf : nodeGroup → indexKey
  | .innerNG (n :: _) => nodeKeySum n.1
  | _ => ⟨0, 0⟩

theorem rootKeyOf_rootForBytes (S : List Nat) :
    rootKeyOf (rootForBytes S) = leafKey S := by
  have hne : ∀ g ∈ finishGroups (appendBytes ⟨[], [], []⟩ S), g ≠ [] :=
    finishGroups_ne _ (appendBytes_ne S _ (by intro g hg; simp at hg))
  have hbytes : allB (finishGroups (appendBytes ⟨[], [], []⟩ S)) = S := by
    rw [finishGroups_bytes, appendBytes_bytes]
    rfl
  obtain ⟨ns, D, heq, hlen, hgood, hD⟩ :=
    buildInner_good _ _ [] (leafLayer_good _ hne)
      (leafLayer_ne_nil _ (finishGroups_nonempty _))
  rw [hbytes] at hD
  cases ns with
  | nil => simp at hlen
  | cons n t =>
    cases t with
    | nil =>
      show rootKeyOf (buildInnerNodesFromLeaves _) = leafKey S
      rw [heq]
      have hk := hgood.1
      simp only [groupKeys, List.map_cons, List.map_nil] at hk
      have : nodeKeySum n.1 = leafKey D := by
        injection hk with h1 h2
      rw [rootKeyOf, this, hD]
    | cons e t2 => simp at hlen

mutual
/-- Key-aggregation invariant checker, recursively from the root: for every
inner node, the key it reports (`innerNode.key()`, the sum of its stored keys)
equals the componentwise sum of the keys of the nodes of its child group
(`child.keys()`). -/
def keyInvariant : nodeGroup → Bool
  | .leafNG _ => true
  | .innerNG ns => keyInvariantNodes ns
/-- The checker over the inner nodes of one group. -/
def keyInvariantNodes : List (List indexKey × nodeGroup) → Bool
  | [] => true
  | (ks, child) :: rest =>
      (nodeKeySum ks == nodeKeySum (groupKeys child)) && keyInvariant child &&
        keyInvariantNodes rest
end

theorem keyInvariantNodes_of_all :
    ∀ (ns : List (List indexKey × nodeGroup)),
      (∀ n ∈ ns, n.1 = groupKeys n.2 ∧ keyInvariant n.2 = true) →
      keyInvariantNodes ns = true := by
  intro ns
  induction ns with
  | nil => intro _; rfl
  | cons n rest ih =>
    intro h
    obtain ⟨hk, hc⟩ := h n (by simp)
    obtain ⟨ks, child⟩ := n
    rw [keyInvariantNodes]
    simp only [Bool.and_eq_true]
    refine ⟨⟨?_, hc⟩, ih (fun m hm => h m (by simp [hm]))⟩
    simp only at hk
    rw [hk]
    simp

theorem chunksOf_mem_subset (k : Nat) :
    ∀ (l : List α) (x : List α), x ∈ chunksOf k l → ∀ a ∈ x, a ∈ l := by
  intro l
  induction l using chunksOf.induct k with
  | case1 => intro x hx; rw [chunksOf_nil] at hx; simp at hx
  | case2 e es ih =>
    intro x hx a ha
    rw [chunksOf_cons] at hx
    rcases List.mem_cons.mp hx with rfl | hx
    · rcases List.mem_cons.mp ha with rfl | ha
      · simp
      · exact List.mem_cons_of_mem _ (List.take_subset _ _ ha)
    · exact List.mem_cons_of_mem _ (List.drop_subset _ _ (ih x hx a ha))

theorem keyInvariant_buildLayer (cgs : List nodeGroup)
    (h : ∀ g ∈ cgs, keyInvariant g = true) :
    ∀ g ∈ buildLayer cgs, keyInvariant g = true := by
  cases cgs with
  | nil =>
    intro g hg
    simp only [buildLayer, List.mem_singleton] at hg
    subst hg
    rfl
  | cons c cs =>
    intro g hg
    simp only [buildLayer, List.mem_map] at hg
    obtain ⟨chunk, hchunk, rfl⟩ := hg
    show keyInvariantNodes chunk = true
    refine keyInvariantNodes_of_all chunk (fun n hn => ?_)
    have hmem := chunksOf_mem_subset maxNodesPerGroup _ chunk hchunk n hn
    simp only [List.mem_map] at hmem
    obtain ⟨g0, hg0, rfl⟩ := hmem
    exact ⟨rfl, h g0 hg0⟩

theorem head_mem_of_ne_nil (l : List α) (d : α) (h : l ≠ []) : l.headD d ∈ l := by
  cases l with
  | nil => exact absurd rfl h
  | cons a t => simp

theorem keyInvariant_buildInner :
    ∀ (cgs : List nodeGroup), (∀ g ∈ cgs, keyInvariant g = true) →
      keyInvariant (buildInnerNodesFromLeaves cgs) = true := by
  intro cgs
  induction cgs using buildInnerNodesFromLeaves.induct with
  | case1 cgs hcond =>
    intro h
    rw [buildInner_eq_pos cgs hcond]
    exact keyInvariant_buildLayer cgs h _
      (head_mem_of_ne_nil _ _ (buildLayer_ne_nil cgs))
  | case2 cgs hcond ih =>
    intro h
    rw [buildInner_eq_neg cgs hcond]
    exact ih (keyInvariant_buildLayer cgs h)

theorem keyInvariant_leafLayer :
    ∀ (GS : List LeafGroup), ∀ g ∈ leafLayer GS, keyInvariant g = true := by
  intro GS
  induction GS with
  | nil => intro g hg; simp [leafLayer] at hg
  | cons x rest ih =>
    intro g hg
    rw [leafLayer] at hg
    rcases List.mem_cons.mp hg with rfl | hg
    · rfl
    · exact ih g hg

/-- Any successful bulk load produces the leaf groups of some byte
sequence. -/
theorem bulkLoad_ok_shape :
    ∀ (rs : List ReadResult) (v : Validator) (st : BulkState) (gs : List LeafGroup)
      (v2 : Validator), bulkLoadIntoLeaves rs v st = .ok (gs, v2) →
      ∃ bs, gs = finishGroups (appendBytes st bs) := by
  intro rs
  induction rs with
  | nil =>
    intro v st gs v2 h
    rw [bulkLoadIntoLeaves] at h
    split_ifs at h
    obtain ⟨h1, -⟩ := Prod.mk.injEq _ _ _ _ ▸ Except.ok.inj h
    exact ⟨[], h1.symm⟩
  | cons r rest ih =>
    intro v st gs v2 h
    cases r with
    | readFailure e => rw [bulkLoadIntoLeaves] at h; exact Except.noConfusion h
    | chunkBytes bs0 =>
      cases bs0 with
      | nil =>
        rw [bulkLoadIntoLeaves] at h
        split_ifs at h
        obtain ⟨h1, -⟩ := Prod.mk.injEq _ _ _ _ ▸ Except.ok.inj h
        exact ⟨[], h1.symm⟩
      | cons b bs1 =>
        rw [bulkLoadIntoLeaves] at h
        cases hm : validateBytes v (b :: bs1) with
        | none => rw [hm] at h; exact Except.noConfusion h
        | some vm =>
          rw [hm] at h
          obtain ⟨cs, hcs⟩ := ih vm (appendBytes st (b :: bs1)) gs v2 h
          exact ⟨(b :: bs1) ++ cs, by rw [hcs, appendBytes_append]⟩

/-- Root shape of any bottom-up build: a single inner node in the root
group. -/
theorem buildInner_shape :
    ∀ (cgs : List nodeGroup), ∃ n, buildInnerNodesFromLeaves cgs = .innerNG [n] := by
  intro cgs
  induction cgs using buildInnerNodesFromLeaves.induct with
  | case1 cgs hcond =>
    rw [buildInner_eq_pos cgs hcond]
    obtain ⟨g, hg⟩ : ∃ g, buildLayer cgs = [g] := by
      have hlen1 := hcond.1
      cases hbl : buildLayer cgs with
      | nil => exact absurd hbl (buildLayer_ne_nil cgs)
      | cons a l =>
        cases l with
        | nil => exact ⟨a, rfl⟩
        | cons e l2 => rw [hbl] at hlen1; simp at hlen1
    obtain ⟨ns, rfl⟩ := buildLayer_all_inner cgs g (by rw [hg]; simp)
    have hnum := hcond.2
    rw [hg] at hnum
    simp only [List.headD_cons, numNodes] at hnum
    cases ns with
    | nil => simp at hnum
    | cons n t =>
      cases t with
      | nil => exact ⟨n, by rw [hg]; rfl⟩
      | cons e t2 => simp at hnum
  | case2 cgs hcond ih =>
    rw [buildInner_eq_neg cgs hcond]
    exact ih

/-! ### Descent characterization (navigation tie-break) -/

/-- Running character count of the first `i` keys (the loop's `c` after `i`
iterations). -/
def prefSumChars (keys : List indexKey) (i : Nat) : Nat :=
  ((keys.take i).map indexKey.numChars).sum

theorem prefSumChars_zero (keys : List indexKey) : prefSumChars keys 0 = 0 := rfl

theorem prefSumChars_cons_succ (k : indexKey) (t : List indexKey) (j : Nat) :
    prefSumChars (k :: t) (j + 1) = k.numChars + prefSumChars t j := by
  simp [prefSumChars, List.take_succ_cons]

theorem innerDescend_index_add :
    ∀ (ks : List indexKey) (i c p : Nat),
      innerDescend ks (i + 1) c p =
        ((innerDescend ks i c p).1 + 1, (innerDescend ks i c p).2) := by
  intro ks
  induction ks with
  | nil => intro i c p; simp [innerDescend_nil]
  | cons k ks ih =>
    intro i c p
    cases ks with
    | nil => simp [innerDescend_single]
    | cons k2 ks2 =>
      rw [innerDescend_cons2, innerDescend_cons2]
      by_cases h : p < c + k.numChars
      · rw [if_pos h, if_pos h]
      · rw [if_neg h, if_neg h, ih]

/-- Range-tested selection: if the first index `i` among the first
`numKeys - 1` keys with `charPos < c + nc` exists, the descent chooses child
`i` with adjusted offset `charPos - c`. -/
theorem descend_select :
    ∀ (keys : List indexKey) (p i : Nat),
      i + 1 < keys.length →
      (∀ t, t < i → prefSumChars keys (t + 1) ≤ p) →
      p < prefSumChars keys (i + 1) →
      innerDescend keys 0 0 p = (i, p - prefSumChars keys i) := by
  intro keys
  induction keys with
  | nil => intro p i h; simp at h
  | cons k ks ih =>
    intro p i hlen hmin hlt
    cases ks with
    | nil => simp at hlen
    | cons k2 ks2 =>
      have h1 : prefSumChars (k :: k2 :: ks2) 1 = k.numChars := by
        rw [(by rfl : (1 : Nat) = 0 + 1), prefSumChars_cons_succ, prefSumChars_zero,
          Nat.add_zero]
      cases i with
      | zero =>
        rw [innerDescend_cons2, if_pos (by rw [h1] at hlt; omega)]
        rw [prefSumChars_zero]
      | succ i2 =>
        have h0 : k.numChars ≤ p := by
          have := hmin 0 (by omega)
          rw [h1] at this
          exact this
        rw [innerDescend_cons2, if_neg (by omega)]
        rw [innerDescend_shift _ _ _ p (by omega), innerDescend_index_add]
        rw [ih (p - (0 + k.numChars)) i2 (by simpa using hlen)
          (fun t ht => by
            have := hmin (t + 1) (by omega)
            rw [prefSumChars_cons_succ] at this
            omega)
          (by
            rw [prefSumChars_cons_succ] at hlt
            omega)]
        rw [Prod.mk.injEq]
        refine ⟨rfl, ?_⟩
        rw [prefSumChars_cons_succ]
        omega

/-- Fallback: when none of the first `numKeys - 1` ranges contains `charPos`,
the descent takes the last child with offset `charPos - c`, whether or not
`charPos` is in range. -/
theorem descend_fallback :
    ∀ (keys : List indexKey) (p : Nat), keys ≠ [] →
      (∀ t, t + 1 < keys.length → prefSumChars keys (t + 1) ≤ p) →
      innerDescend keys 0 0 p =
        (keys.length - 1, p - prefSumChars keys (keys.length - 1)) := by
  intro keys
  induction keys with
  | nil => intro p h; exact absurd rfl h
  | cons k ks ih =>
    intro p _ hmin
    cases ks with
    | nil =>
      rw [innerDescend_single]
      simp [prefSumChars]
    | cons k2 ks2 =>
      have h1 : prefSumChars (k :: k2 :: ks2) 1 = k.numChars := by
        rw [(by rfl : (1 : Nat) = 0 + 1), prefSumChars_cons_succ, prefSumChars_zero,
          Nat.add_zero]
      have h0 : k.numChars ≤ p := by
        have := hmin 0 (by simp)
        rw [h1] at this
        exact this
      rw [innerDescend_cons2, if_neg (by omega)]
      rw [innerDescend_shift _ _ _ p (by omega), innerDescend_index_add]
      rw [ih (p - (0 + k.numChars)) (by simp)
        (fun t ht => by
          have := hmin (t + 1) (by simpa using Nat.succ_lt_succ ht)
          rw [prefSumChars_cons_succ] at this
          omega)]
      rw [Prod.mk.injEq]
      have hlen : (k :: k2 :: ks2).length - 1 = ((k2 :: ks2).length - 1) + 1 := by
        simp
      refine ⟨by simp, ?_⟩
      rw [hlen, prefSumChars_cons_succ]
      omega

/-! ### Reader verdicts (error classification) -/

/-- The outcome of running only the validator over the reader's results,
independently of tree construction. -/
inductive ReaderVerdict where
  | okStream
  | invalid
  | ioErr (code : Nat)
  deriving DecidableEq, Repr

/-- What the stream alone determines: a non-EOF read error (hit before any
validation failure), a UTF-8 violation (a rejected chunk or a stream ending
mid-sequence), or clean termination. -/
def readerVerdict : List ReadResult → Validator → ReaderVerdict
  | [], v => if validateEnd v then .okStream else .invalid
  | .readFailure e :: _, _ => .ioErr e
  | .chunkBytes [] :: _, v => if validateEnd v then .okStream else .invalid
  | .chunkBytes (b :: bs) :: rest, v =>
    match validateBytes v (b :: bs) with
    | none => .invalid
    | some v2 => readerVerdict rest v2

theorem bulkLoad_matches_verdict :
    ∀ (rs : List ReadResult) (v : Validator) (st : BulkState),
      (readerVerdict rs v = .okStream →
        ∃ gs v2, bulkLoadIntoLeaves rs v st = .ok (gs, v2)) ∧
      (readerVerdict rs v = .invalid →
        bulkLoadIntoLeaves rs v st = .error .invalidUtf8) ∧
      (∀ e, readerVerdict rs v = .ioErr e →
        bulkLoadIntoLeaves rs v st = .error (.ioError e)) := by
  intro rs
  induction rs with
  | nil =>
    intro v st
    by_cases hv : validateEnd v = true
    · rw [(by rw [readerVerdict, if_pos hv] : readerVerdict [] v = .okStream),
        (by rw [bulkLoadIntoLeaves, if_pos hv] :
          bulkLoadIntoLeaves [] v st = .ok (finishGroups st, v))]
      exact ⟨fun _ => ⟨_, _, rfl⟩, fun h => ReaderVerdict.noConfusion h,
        fun e h => ReaderVerdict.noConfusion h⟩
    · rw [(by rw [readerVerdict, if_neg hv] : readerVerdict [] v = .invalid),
        (by rw [bulkLoadIntoLeaves, if_neg hv] :
          bulkLoadIntoLeaves [] v st = .error .invalidUtf8)]
      exact ⟨fun h => ReaderVerdict.noConfusion h, fun _ => rfl,
        fun e h => ReaderVerdict.noConfusion h⟩
  | cons r rest ih =>
    intro v st
    cases r with
    | readFailure e0 =>
      rw [(by rw [readerVerdict] : readerVerdict (.readFailure e0 :: rest) v = .ioErr e0),
        (by rw [bulkLoadIntoLeaves] :
          bulkLoadIntoLeaves (.readFailure e0 :: rest) v st = .error (.ioError e0))]
      refine ⟨fun h => ReaderVerdict.noConfusion h, fun h => ReaderVerdict.noConfusion h,
        fun e h => ?_⟩
      obtain rfl := ReaderVerdict.ioErr.inj h
      rfl
    | chunkBytes bs0 =>
      cases bs0 with
      | nil =>
        by_cases hv : validateEnd v = true
        · rw [(by rw [readerVerdict, if_pos hv] :
            readerVerdict (.chunkBytes [] :: rest) v = .okStream),
            (by rw [bulkLoadIntoLeaves, if_pos hv] :
              bulkLoadIntoLeaves (.chunkBytes [] :: rest) v st = .ok (finishGroups st, v))]
          exact ⟨fun _ => ⟨_, _, rfl⟩, fun h => ReaderVerdict.noConfusion h,
            fun e h => ReaderVerdict.noConfusion h⟩
        · rw [(by rw [readerVerdict, if_neg hv] :
            readerVerdict (.chunkBytes [] :: rest) v = .invalid),
            (by rw [bulkLoadIntoLeaves, if_neg hv] :
              bulkLoadIntoLeaves (.chunkBytes [] :: rest) v st = .error .invalidUtf8)]
          exact ⟨fun h => ReaderVerdict.noConfusion h, fun _ => rfl,
            fun e h => ReaderVerdict.noConfusion h⟩
      | cons b bs1 =>
        cases hm : validateBytes v (b :: bs1) with
        | none =>
          rw [(by rw [readerVerdict, hm] :
            readerVerdict (.chunkBytes (b :: bs1) :: rest) v = .invalid),
            (by rw [bulkLoadIntoLeaves, hm] :
              bulkLoadIntoLeaves (.chunkBytes (b :: bs1) :: rest) v st =
                .error .invalidUtf8)]
          exact ⟨fun h => ReaderVerdict.noConfusion h, fun _ => rfl,
            fun e h => ReaderVerdict.noConfusion h⟩
        | some vm =>
          rw [(by rw [readerVerdict, hm] :
            readerVerdict (.chunkBytes (b :: bs1) :: rest) v = readerVerdict rest vm),
            (by rw [bulkLoadIntoLeaves, hm] :
              bulkLoadIntoLeaves (.chunkBytes (b :: bs1) :: rest) v st =
                bulkLoadIntoLeaves rest vm (appendBytes st (b :: bs1)))]
          exact ih vm (appendBytes st (b :: bs1))

/-! ### The claims -/

/-- The bytes of "héllo\nworld": 12 bytes, 11 UTF-8 characters, 1 line
break (é is 0xC3 0xA9). -/
def helloBytes : List Nat := [104, 195, 169, 108, 108, 111, 10, 119, 111, 114, 108, 100]

theorem newTreeFromReader_root (rs : List ReadResult) (t : Tree) (e : Option TreeError)
    (hok : NewTreeFromReader rs = (some t, e)) : ∃ S, t.root = rootForBytes S := by
  unfold NewTreeFromReader at hok
  cases hbl : bulkLoadIntoLeaves rs newValidator ⟨[], [], []⟩ with
  | error e2 =>
    rw [hbl] at hok
    obtain ⟨h1, -⟩ := Prod.mk.injEq _ _ _ _ ▸ hok
    exact Option.noConfusion h1
  | ok gv =>
    obtain ⟨gs, v⟩ := gv
    rw [hbl] at hok
    obtain ⟨h1, -⟩ := Prod.mk.injEq _ _ _ _ ▸ hok
    obtain rfl := Option.some.inj h1
    obtain ⟨bs, rfl⟩ := bulkLoad_ok_shape rs newValidator ⟨[], [], []⟩ gs v hbl
    exact ⟨bs, rfl⟩

/-- C1: Round-trip — for every valid UTF-8 byte sequence `S`, building a tree
with `NewTreeFromReader` from a stream producing `S` (any splitting of `S`
into non-empty chunks) succeeds, and reading the cursor returned by
`CursorAtPosition 0` to exhaustion (one `Read` into a buffer larger than `S`)
reproduces exactly the bytes of `S`, with end-of-stream signalled. -/
theorem claim_C1_round_trip (S : List Nat) (chunks : List (List Nat))
    (hflat : chunks.flatten = S) (hne : ∀ c ∈ chunks, c ≠ [])
    (hacc : acceptedUtf8 S = true) :
    ∃ t v2, NewTreeFromReader (chunks.map .chunkBytes) = (some t, none) ∧
      t = ⟨rootForBytes S, v2⟩ ∧
      ∀ bufLen, S.length < bufLen → (t.cursorAtPosition 0).read bufLen = (S, true) := by
  subst hflat
  obtain ⟨v2, hok⟩ := newTreeFromReader_ok chunks hne hacc
  refine ⟨_, v2, hok, rfl, fun bufLen hbl => ?_⟩
  show (goGroup (rootForBytes chunks.flatten) 0 0).read bufLen = _
  rw [read_from_root, accepted_byteOffset_zero _ hacc]
  simp only [List.drop_zero]
  rw [Prod.mk.injEq]
  exact ⟨List.take_of_length_le (by omega), by rw [decide_eq_true_eq]; exact hbl⟩

/-- C1 witness: the valid input "héllo\nworld" as a single chunk. -/
theorem claim_C1_round_trip_witness :
    ∃ t v2, NewTreeFromReader ([helloBytes].map .chunkBytes) = (some t, none) ∧
      t = ⟨rootForBytes helloBytes, v2⟩ ∧
      ∀ bufLen, helloBytes.length < bufLen →
        (t.cursorAtPosition 0).read bufLen = (helloBytes, true) :=
  claim_C1_round_trip helloBytes [helloBytes] (by decide) (by decide) (by decide)

theorem charSeg_hello : charSeg helloBytes =
    [[104], [195, 169], [108], [108], [111], [10], [119], [111], [114], [108], [100]] := by
  simp [helloBytes, charSeg_cons, charSeg_nil, utf8StartByteIndicator]

/-- C2: Positional correctness — on the tree built from a valid UTF-8
sequence `S`, reading the cursor at any character position `p ≤ totalChars`
to exhaustion yields exactly the UTF-8 encoding of the character suffix of
`S` from position `p` (the flattening of `S`'s character segmentation from
`p`); in particular, for "héllo\nworld" the root aggregate key is
(11 chars, 1 line), position 1 reads "éllo\nworld", position 11 reads
nothing and reports end-of-stream immediately, and position 6 reads
"world". -/
theorem claim_C2_positional :
    (∀ (S : List Nat) (chunks : List (List Nat)), chunks.flatten = S →
      (∀ c ∈ chunks, c ≠ []) → acceptedUtf8 S = true →
      ∃ (t : Tree), NewTreeFromReader (chunks.map .chunkBytes) = (some t, none) ∧
        rootKeyOf t.root = leafKey S ∧
        ∀ p, p ≤ numCharsOf S → ∀ bufLen, S.length < bufLen →
          (t.cursorAtPosition p).read bufLen = (((charSeg S).drop p).flatten, true)) ∧
    (∃ t, (NewTreeFromReader ([helloBytes].map .chunkBytes)).1 = some t ∧
      rootKeyOf t.root = ⟨11, 1⟩ ∧
      (t.cursorAtPosition 1).read 100 =
        ([195, 169, 108, 108, 111, 10, 119, 111, 114, 108, 100], true) ∧
      (t.cursorAtPosition 11).read 100 = ([], true) ∧
      (t.cursorAtPosition 6).read 100 = ([119, 111, 114, 108, 100], true)) := by
  have main : ∀ (S : List Nat) (chunks : List (List Nat)), chunks.flatten = S →
      (∀ c ∈ chunks, c ≠ []) → acceptedUtf8 S = true →
      ∃ (t : Tree) (v2 : Validator),
        NewTreeFromReader (chunks.map .chunkBytes) = (some t, none) ∧
        t = ⟨rootForBytes S, v2⟩ ∧
        rootKeyOf t.root = leafKey S ∧
        ∀ p, p ≤ numCharsOf S → ∀ bufLen, S.length < bufLen →
          (t.cursorAtPosition p).read bufLen = (((charSeg S).drop p).flatten, true) := by
    intro S chunks hflat hne hacc
    subst hflat
    obtain ⟨v2, hok⟩ := newTreeFromReader_ok chunks hne hacc
    refine ⟨_, v2, hok, rfl, rootKeyOf_rootForBytes _, fun p hp bufLen hbl => ?_⟩
    show (goGroup (rootForBytes chunks.flatten) 0 p).read bufLen = _
    rw [read_from_root]
    have hsuf : (chunks.flatten.drop
        (byteOffsetForPosition chunks.flatten p)).length ≤ chunks.flatten.length := by
      rw [List.length_drop]
      omega
    rw [Prod.mk.injEq]
    constructor
    · rw [List.take_of_length_le (by omega),
        charSeg_drop chunks.flatten.length chunks.flatten (Nat.le_refl _) hacc p]
    · simp only [decide_eq_true_eq]
      omega
  refine ⟨fun S chunks h1 h2 h3 => ?_, ?_⟩
  · obtain ⟨t, v2, hok, -, hkey, hread⟩ := main S chunks h1 h2 h3
    exact ⟨t, hok, hkey, hread⟩
  · obtain ⟨t, v2, hok, ht, hkey, hread⟩ :=
      main helloBytes [helloBytes] (by decide) (by decide) (by decide)
    refine ⟨t, ?_, ?_, ?_, ?_, ?_⟩
    · rw [hok]
    · rw [hkey]
      decide
    · rw [hread 1 (by decide) 100 (by decide), charSeg_hello]
      decide
    · rw [hread 11 (by decide) 100 (by decide), charSeg_hello]
      decide
    · rw [hread 6 (by decide) 100 (by decide), charSeg_hello]
      decide

/-- C4: Past-end positions are not errors — for every tree returned by
`NewTreeFromReader` (holding the bytes of some sequence `S`) and every
character position at or past the character count, `CursorAtPosition`
returns a cursor whose very first `Read` into a non-empty buffer copies zero
bytes and signals end-of-stream (io.EOF), never any other error; likewise for
the empty tree built by `NewTree`, at every position. -/
theorem claim_C4_past_end (rs : List ReadResult) (t : Tree) (e : Option TreeError)
    (hok : NewTreeFromReader rs = (some t, e)) :
    (∃ S, t.root = rootForBytes S ∧
      ∀ p, numCharsOf S ≤ p → ∀ bufLen, 0 < bufLen →
        (t.cursorAtPosition p).read bufLen = ([], true)) ∧
    (∀ p bufLen, 0 < bufLen → (NewTree.cursorAtPosition p).read bufLen = ([], true)) := by
  constructor
  · obtain ⟨S, hroot⟩ := newTreeFromReader_root rs t e hok
    refine ⟨S, hroot, fun p hp bufLen hbuf => ?_⟩
    show (goGroup t.root 0 p).read bufLen = _
    rw [hroot, read_from_root, byteOffsetForPosition_ge_chars S p hp,
      List.drop_length]
    simp [hbuf]
  · intro p bufLen hbuf
    have hroot : NewTree.root = rootForBytes [] := by
      have hbuild : buildLayer (leafLayer [[[]]]) =
          [.innerNG [([⟨0, 0⟩], .leafNG [[[]]])]] := by
        simp only [leafLayer, buildLayer, List.map_cons, List.map_nil,
          chunksOf_cons, List.take_nil, List.drop_nil, chunksOf_nil]
        rfl
      show NewTree.root = buildInnerNodesFromLeaves (leafLayer [[[]]])
      rw [buildInner_eq_pos]
      · rw [hbuild]
        rfl
      · rw [hbuild]
        exact ⟨rfl, rfl⟩
    show (goGroup NewTree.root 0 p).read bufLen = _
    rw [hroot, read_from_root]
    simp [byteOffsetForPosition, hbuf]

/-- C4 witness: the tree built from "héllo\nworld"; its construction result
is evaluated concretely. -/
theorem claim_C4_past_end_witness :
    (∃ S, (Tree.mk (rootForBytes helloBytes) ⟨0, 0x80, 0xBF⟩).root = rootForBytes S ∧
      ∀ p, numCharsOf S ≤ p → ∀ bufLen, 0 < bufLen →
        ((Tree.mk (rootForBytes helloBytes) ⟨0, 0x80, 0xBF⟩).cursorAtPosition p).read
          bufLen = ([], true)) ∧
    (∀ p bufLen, 0 < bufLen → (NewTree.cursorAtPosition p).read bufLen = ([], true)) :=
  claim_C4_past_end [.chunkBytes helloBytes]
    ⟨rootForBytes helloBytes, ⟨0, 0x80, 0xBF⟩⟩ none
    (by
      have h := bulkLoad_ok_of_valid [helloBytes] (by decide) newValidator
        ⟨[], [], []⟩ ⟨0, 0x80, 0xBF⟩ (by decide) (by decide)
      simp only [List.map_cons, List.map_nil] at h
      unfold NewTreeFromReader
      rw [h]
      rfl)

/-- C3: Key-aggregation invariant — after construction by `NewTree` or by
`NewTreeFromReader` (whenever it returns a tree), every inner node's reported
aggregate key (`innerNode.key()`, the componentwise sum of its stored keys)
equals the componentwise sum of the keys of the nodes in its child group,
recursively from the leaves up to the root. No mutation operation exists in
the code under verification. -/
theorem claim_C3_key_invariant :
    keyInvariant NewTree.root = true ∧
    (∀ (rs : List ReadResult) (t : Tree) (e : Option TreeError),
      NewTreeFromReader rs = (some t, e) → keyInvariant t.root = true) := by
  constructor
  · decide
  · intro rs t e hok
    unfold NewTreeFromReader at hok
    cases hbl : bulkLoadIntoLeaves rs newValidator ⟨[], [], []⟩ with
    | error e2 =>
      rw [hbl] at hok
      obtain ⟨h1, -⟩ := Prod.mk.injEq _ _ _ _ ▸ hok
      exact Option.noConfusion h1
    | ok gv =>
      obtain ⟨gs, v⟩ := gv
      rw [hbl] at hok
      obtain ⟨h1, -⟩ := Prod.mk.injEq _ _ _ _ ▸ hok
      obtain rfl := Option.some.inj h1
      exact keyInvariant_buildInner (leafLayer gs) (keyInvariant_leafLayer gs)

/-- C5: No observable character splitting — on the tree built from a valid
UTF-8 sequence `S`, for every character position `p`, the byte stream read to
exhaustion from `CursorAtPosition p` is exactly the suffix of `S` from the
`p`-th character's start byte (continuation bytes preceding it in the leaf
are skipped), and that stream is itself valid UTF-8 — it never contains a
truncated multi-byte sequence, even when a multi-byte character's bytes span
two adjacent leaf nodes. -/
theorem claim_C5_no_split (S : List Nat) (chunks : List (List Nat))
    (hflat : chunks.flatten = S) (hne : ∀ c ∈ chunks, c ≠ [])
    (hacc : acceptedUtf8 S = true) :
    ∃ (t : Tree), NewTreeFromReader (chunks.map .chunkBytes) = (some t, none) ∧
      ∀ p bufLen, S.length < bufLen →
        ((t.cursorAtPosition p).read bufLen).1 = S.drop (byteOffsetForPosition S p) ∧
        acceptedUtf8 (((t.cursorAtPosition p).read bufLen).1) = true := by
  subst hflat
  obtain ⟨v2, hok⟩ := newTreeFromReader_ok chunks hne hacc
  refine ⟨_, hok, fun p bufLen hbl => ?_⟩
  have hr : ((Tree.mk (rootForBytes chunks.flatten) v2).cursorAtPosition p).read bufLen =
      ((chunks.flatten.drop (byteOffsetForPosition chunks.flatten p)).take bufLen,
        decide ((chunks.flatten.drop (byteOffsetForPosition chunks.flatten p)).length
          < bufLen)) := read_from_root chunks.flatten p bufLen
  rw [hr]
  have hlen : (chunks.flatten.drop
      (byteOffsetForPosition chunks.flatten p)).length ≤ chunks.flatten.length := by
    rw [List.length_drop]
    omega
  constructor
  · exact List.take_of_length_le (by omega)
  · show acceptedUtf8 ((chunks.flatten.drop _).take bufLen) = true
    rw [List.take_of_length_le (by omega)]
    exact accepted_drop chunks.flatten.length chunks.flatten (Nat.le_refl _) hacc p

/-- C5 witness: "héllo\nworld" as a single chunk. -/
theorem claim_C5_no_split_witness :
    ∃ (t : Tree), NewTreeFromReader ([helloBytes].map .chunkBytes) = (some t, none) ∧
      ∀ p bufLen, helloBytes.length < bufLen →
        ((t.cursorAtPosition p).read bufLen).1 =
          helloBytes.drop (byteOffsetForPosition helloBytes p) ∧
        acceptedUtf8 (((t.cursorAtPosition p).read bufLen).1) = true :=
  claim_C5_no_split helloBytes [helloBytes] (by decide) (by decide) (by decide)

/-- C6: Construction failure atomicity and error classification — whenever
`NewTreeFromReader` returns an error it returns no tree (nil); it returns the
invalid-UTF-8 error exactly when the validator rejects a chunk or the stream
ends mid-sequence (`readerVerdict` runs only the validator over the stream);
and an I/O error from the reader is returned unchanged (same code), never
wrapped into or replaced by the invalid-UTF-8 error. -/
theorem claim_C6_errors (rs : List ReadResult) :
    ((NewTreeFromReader rs).2.isSome → (NewTreeFromReader rs).1 = none) ∧
    ((NewTreeFromReader rs).2 = some .invalidUtf8 ↔
      readerVerdict rs newValidator = .invalid) ∧
    (∀ e, (NewTreeFromReader rs).2 = some (.ioError e) ↔
      readerVerdict rs newValidator = .ioErr e) := by
  have hv := bulkLoad_matches_verdict rs newValidator ⟨[], [], []⟩
  cases hverd : readerVerdict rs newValidator with
  | okStream =>
    obtain ⟨gs, v2, hok⟩ := hv.1 hverd
    unfold NewTreeFromReader
    rw [hok]
    refine ⟨fun h => by simp at h, ?_, fun e => ?_⟩
    · simp
    · simp
  | invalid =>
    have hbl := hv.2.1 hverd
    unfold NewTreeFromReader
    rw [hbl]
    refine ⟨fun _ => rfl, by simp, fun e => ?_⟩
    simp
  | ioErr e0 =>
    have hbl := hv.2.2 e0 hverd
    unfold NewTreeFromReader
    rw [hbl]
    refine ⟨fun _ => rfl, by simp, fun e => ?_⟩
    constructor
    · intro h
      obtain rfl := TreeError.ioError.inj (Option.some.inj h)
      rfl
    · intro h
      obtain rfl := ReaderVerdict.ioErr.inj h
      rfl

/-- C7: Navigation descent with strict-less-than tie-break — with running
offset `c` over the first `numKeys - 1` keys, the descent selects the first
child `i` with `charPos < c + nc` (adjusted offset `charPos - c`), so a
position landing exactly on a child boundary resolves into the following
child's subtree; when no earlier key matches, it takes the last child with
offset `charPos - c` whether or not `charPos` is in range. Concretely, with
keys of 3, 4 and 5 characters, position 3 (the boundary) selects child 1 at
offset 0 and position 100 falls through to child 2 at offset 93. -/
theorem claim_C7_descent :
    (∀ (keys : List indexKey) (p i : Nat),
      i + 1 < keys.length →
      (∀ t, t < i → prefSumChars keys (t + 1) ≤ p) →
      p < prefSumChars keys (i + 1) →
      innerDescend keys 0 0 p = (i, p - prefSumChars keys i)) ∧
    (∀ (keys : List indexKey) (p : Nat), keys ≠ [] →
      (∀ t, t + 1 < keys.length → prefSumChars keys (t + 1) ≤ p) →
      innerDescend keys 0 0 p =
        (keys.length - 1, p - prefSumChars keys (keys.length - 1))) ∧
    innerDescend [⟨3, 0⟩, ⟨4, 0⟩, ⟨5, 0⟩] 0 0 3 = (1, 0) ∧
    innerDescend [⟨3, 0⟩, ⟨4, 0⟩, ⟨5, 0⟩] 0 0 100 = (2, 93) :=
  ⟨descend_select, descend_fallback, by decide, by decide⟩

/-- C9: Implicit root-shape invariant — `NewTree` and every tree returned by
`NewTreeFromReader` have as root an inner node group containing exactly one
inner node; for the empty document that node's child is a leaf group holding
a single leaf with zero bytes. -/
theorem claim_C9_root_shape :
    NewTree.root = .innerNG [([⟨0, 0⟩], .leafNG [[[]]])] ∧
    (∀ (rs : List ReadResult) (t : Tree) (e : Option TreeError),
      NewTreeFromReader rs = (some t, e) → ∃ n, t.root = .innerNG [n]) ∧
    (∀ (t : Tree) (e : Option TreeError), NewTreeFromReader [] = (some t, e) →
      t.root = .innerNG [([⟨0, 0⟩], .leafNG [[[]]])]) := by
  refine ⟨rfl, ?_, ?_⟩
  · intro rs t e hok
    unfold NewTreeFromReader at hok
    cases hbl : bulkLoadIntoLeaves rs newValidator ⟨[], [], []⟩ with
    | error e2 =>
      rw [hbl] at hok
      obtain ⟨h1, -⟩ := Prod.mk.injEq _ _ _ _ ▸ hok
      exact Option.noConfusion h1
    | ok gv =>
      obtain ⟨gs, v⟩ := gv
      rw [hbl] at hok
      obtain ⟨h1, -⟩ := Prod.mk.injEq _ _ _ _ ▸ hok
      obtain rfl := Option.some.inj h1
      exact buildInner_shape (leafLayer gs)
  · intro t e hok
    have hbl : bulkLoadIntoLeaves [] newValidator ⟨[], [], []⟩ =
        .ok ([[[]]], newValidator) := by rfl
    unfold NewTreeFromReader at hok
    rw [hbl] at hok
    obtain ⟨h1, -⟩ := Prod.mk.injEq _ _ _ _ ▸ hok
    obtain rfl := Option.some.inj h1
    show buildInnerNodesFromLeaves (leafLayer [[[]]]) = _
    have hbuild : buildLayer (leafLayer [[[]]]) =
        [.innerNG [([⟨0, 0⟩], .leafNG [[[]]])]] := by
      simp only [leafLayer, buildLayer, List.map_cons, List.map_nil,
        chunksOf_cons, List.take_nil, List.drop_nil, chunksOf_nil]
      rfl
    rw [buildInner_eq_pos]
    · rw [hbuild]
      rfl
    · rw [hbuild]
      exact ⟨rfl, rfl⟩

/-- C10: Implicit end-of-stream reporting — on any reachable cursor state,
when `Read` is called with a buffer larger than the bytes remaining, it
returns those remaining bytes together with io.EOF in that same call; io.EOF
with a zero byte count is returned exactly when no bytes remain at the start
of the call (and the buffer is non-empty). -/
theorem claim_C10_eof (c : Cursor)
    (hv : ValidRead c.groups c.nodeIdx c.textByteOffset) (bufLen : Nat) :
    ((remBytes c.groups c.nodeIdx c.textByteOffset).length < bufLen →
      c.read bufLen = (remBytes c.groups c.nodeIdx c.textByteOffset, true)) ∧
    (((c.read bufLen).1 = [] ∧ (c.read bufLen).2 = true) ↔
      (remBytes c.groups c.nodeIdx c.textByteOffset = [] ∧ 0 < bufLen)) := by
  have hs := readLoop_spec c.groups c.nodeIdx c.textByteOffset bufLen hv
  show ((remBytes c.groups c.nodeIdx c.textByteOffset).length < bufLen →
      readLoop c.groups c.nodeIdx c.textByteOffset bufLen = _) ∧
    (((readLoop c.groups c.nodeIdx c.textByteOffset bufLen).1 = [] ∧
      (readLoop c.groups c.nodeIdx c.textByteOffset bufLen).2 = true) ↔ _)
  rw [hs]
  constructor
  · intro hlt
    rw [Prod.mk.injEq]
    exact ⟨List.take_of_length_le (by omega), by rw [decide_eq_true_eq]; exact hlt⟩
  · constructor
    · rintro ⟨h1, h2⟩
      simp only [decide_eq_true_eq] at h2
      constructor
      · have : (remBytes c.groups c.nodeIdx c.textByteOffset).take bufLen = [] := h1
        rcases List.take_eq_nil_iff.mp this with h | h
        · omega
        · exact h
      · omega
    · rintro ⟨h1, h2⟩
      rw [h1]
      exact ⟨by simp, by simpa using h2⟩

/-- C10 witness: a cursor at the start of a one-group, one-leaf document
holding two bytes, read with a buffer of five bytes. -/
theorem claim_C10_eof_witness :
    ((remBytes (Cursor.mk [[[104, 105]]] 0 0).groups (Cursor.mk [[[104, 105]]] 0 0).nodeIdx
        (Cursor.mk [[[104, 105]]] 0 0).textByteOffset).length < 5 →
      (Cursor.mk [[[104, 105]]] 0 0).read 5 =
        (remBytes (Cursor.mk [[[104, 105]]] 0 0).groups (Cursor.mk [[[104, 105]]] 0 0).nodeIdx
          (Cursor.mk [[[104, 105]]] 0 0).textByteOffset, true)) ∧
    ((((Cursor.mk [[[104, 105]]] 0 0).read 5).1 = [] ∧
        (((Cursor.mk [[[104, 105]]] 0 0).read 5).2 = true)) ↔
      (remBytes (Cursor.mk [[[104, 105]]] 0 0).groups (Cursor.mk [[[104, 105]]] 0 0).nodeIdx
        (Cursor.mk [[[104, 105]]] 0 0).textByteOffset = [] ∧ 0 < 5)) :=
  claim_C10_eof ⟨[[[104, 105]]], 0, 0⟩
    ⟨by decide, Or.inr ⟨by decide, by decide⟩⟩ 5

end TextTree
